import Mathlib

/-!
# The WiredTiger JNI bridge (`jni/jni.cpp`)

A shallow embedding of the bridge functions `wiredtiger_get`, `wiredtiger_write`,
`wiredtiger_iter_new`, `wiredtiger_iter_next` and `wiredtiger_iter_prev`.

* The bridge code is translated statement by statement. Every call it makes into the engine is
  recorded as an `Event` (the call and its return code), so that the order and number of engine
  calls can be stated and proved.
* Outcomes the code branches on but does not decide itself (return codes of the engine, a null
  result of `GetByteArrayElements`, the class and member lookups) are inputs of the model.
* The engine is a transactional key-value map: `begin_transaction` opens a private view,
  `update` and `remove` change it, `commit_transaction` publishes it, `rollback_transaction`
  discards it.
-/

namespace WtJni

/-! ## Data model -/

/-- Byte strings: the unit of keys and values. -/
abbrev Bytes := List Nat

/-- The caller-side `jane.core.Octets` object as the bridge reads it: the field `_buffer`
(a byte array, possibly null) and the field `_count` (a jint). The Java class keeps
`0 ≤ _count ≤ _buffer.length`. -/
structure Octets where
  buffer : Option Bytes
  count : Int
deriving DecidableEq, Repr

/-- A `java.util.Map.Entry`: the results of `getKey()` and `getValue()`, either possibly null. -/
structure Entry where
  key : Option Octets
  value : Option Octets
deriving DecidableEq, Repr

/-- One turn of the Java iterator: the entry returned by `next()`, with the outcomes of the
fallible calls the loop body branches on for that entry: whether `GetByteArrayElements`
returned a non-null pointer for the key buffer and for the value buffer, and the return code
the cursor gives to the `update` or `remove` issued for the entry (0 for success). -/
structure Step where
  entry : Entry
  keyptr : Bool
  valptr : Bool
  op_ret : Int
deriving DecidableEq, Repr

/-- The `jobject it` argument of `wiredtiger_write`: whether it is an instance of
`java.util.Iterator`, and the turns it yields until `hasNext()` is false. -/
structure JObject where
  is_iterator : Bool
  steps : List Step
deriving DecidableEq, Repr

/-- The `WT_ITEM` the bridge fills in for the engine: `data` is the memory it points to (the
pinned Java array, or memory owned by the engine) and `size` the value stored into the `size`
field. The bridge stores the length it was given as it is; nothing here cuts it down to the
length of `data`. -/
structure WT_ITEM where
  data : Bytes
  size : Int
deriving DecidableEq, Repr

/-- The bytes of an item that lie inside `data`: the first `size` of them. For `size` beyond
the length of `data` the engine would read past the array; the model does not follow that
read, and statements about stored bytes are made for items with `size` at most the length. -/
def WT_ITEM.bytes (w : WT_ITEM) : Bytes := w.data.take w.size.toNat

/-- Calls into the engine (`WT_SESSION` and `WT_CURSOR` methods). -/
inductive Call where
  | begin_transaction
  | set_key (k : WT_ITEM)
  | set_value (v : WT_ITEM)
  | update
  | remove
  | commit_transaction
  | rollback_transaction
deriving DecidableEq, Repr

/-- An engine call with the return code it gave (0 for calls whose result the bridge ignores). -/
structure Event where
  call : Call
  ret : Int
deriving DecidableEq, Repr

/-- What `wiredtiger_write` does not decide itself: the static `s_err` on entry (-1 before the
first call), whether `FindClass` found the three classes, whether all method and field ids were
resolved, and the return codes of `begin_transaction` and `commit_transaction`. -/
structure WriteEnv where
  s_err : Int
  classes : Bool
  members : Bool
  begin_ret : Int
  commit_ret : Int
deriving DecidableEq, Repr

/-- The observable outcome of one call of `wiredtiger_write`: the returned status, the static
`s_err` afterwards, the number of entries fetched from the iterator with `next()`, and the
engine calls made, in order. -/
structure WriteResult where
  status : Int
  s_err : Int
  reads : Nat
  trace : List Event
deriving DecidableEq, Repr

/-! ## `wiredtiger_write` (jni.cpp lines 119-225) -/

/-- The body of the `while` loop (lines 161-222) for one entry: the engine events of the
iteration, and `some code` when the body returns `code` from the function. -/
def write_entry (st : Step) : List Event × Option Int :=
  match st.entry.key with
  | none => ([], none)
  | some key =>
    let keybuf := key.buffer
    let keylen := key.count
    if keybuf.isSome ∧ keylen > 0 then
      if st.keyptr then
        let wik : WT_ITEM := ⟨keybuf.getD [], keylen⟩
        match st.entry.value with
        | some val =>
          let valbuf := val.buffer
          let vallen := val.count
          if valbuf.isSome ∧ vallen > 0 then
            if st.valptr then
              let wiv : WT_ITEM := ⟨valbuf.getD [], vallen⟩
              if st.op_ret ≠ 0 then
                ([⟨.set_key wik, 0⟩, ⟨.set_value wiv, 0⟩, ⟨.update, st.op_ret⟩,
                  ⟨.rollback_transaction, 0⟩], some 7)
              else ([⟨.set_key wik, 0⟩, ⟨.set_value wiv, 0⟩, ⟨.update, st.op_ret⟩], none)
            else ([], none)
          else
            if st.op_ret ≠ 0 then
              ([⟨.set_key wik, 0⟩, ⟨.remove, st.op_ret⟩, ⟨.rollback_transaction, 0⟩], some 8)
            else ([⟨.set_key wik, 0⟩, ⟨.remove, st.op_ret⟩], none)
        | none =>
          if st.op_ret ≠ 0 then
            ([⟨.set_key wik, 0⟩, ⟨.remove, st.op_ret⟩, ⟨.rollback_transaction, 0⟩], some 9)
          else ([⟨.set_key wik, 0⟩, ⟨.remove, st.op_ret⟩], none)
      else ([], none)
    else ([], none)

/-- The `while` loop and the final commit (lines 159-224), after a successful
`begin_transaction`: status, number of entries fetched, engine events. -/
def write_loop (commit_ret : Int) : List Step → Int × Nat × List Event
  | [] => (if commit_ret ≠ 0 then 5 else 0, 0, [⟨.commit_transaction, commit_ret⟩])
  | st :: rest =>
    match write_entry st with
    | (evs, some code) => (code, 1, evs)
    | (evs, none) =>
      let r := write_loop commit_ret rest
      (r.1, r.2.1 + 1, evs ++ r.2.2)

/-- The part of `wiredtiger_write` after the lookup initialisation (lines 155-224). -/
def write_body (env : WriteEnv) (s_err : Int) (it : JObject) : WriteResult :=
  if it.is_iterator = false then ⟨4, s_err, 0, []⟩
  else if env.begin_ret ≠ 0 then ⟨6, s_err, 0, [⟨.begin_transaction, env.begin_ret⟩]⟩
  else
    let r := write_loop env.commit_ret it.steps
    ⟨r.1, s_err, r.2.1, ⟨.begin_transaction, env.begin_ret⟩ :: r.2.2⟩

/-- The function `Java_jane_core_StorageWtDB_wiredtiger_1write`: `session` and `cursor` are the
jlong handles (0 is null), `it` the iterator object (none is null). -/
def wiredtiger_write (env : WriteEnv) (session cursor : Int) (it : Option JObject) :
    WriteResult :=
  match it with
  | none => ⟨1, env.s_err, 0, []⟩
  | some it =>
    if session = 0 ∨ cursor = 0 then ⟨1, env.s_err, 0, []⟩
    else if env.s_err < 0 then
      if env.classes = false then ⟨2, 2, 0, []⟩
      else if env.members = false then ⟨3, 3, 0, []⟩
      else write_body env 0 it
    else if env.s_err > 0 then ⟨env.s_err, env.s_err, 0, []⟩
    else write_body env env.s_err it

/-! ## The engine: a transactional key-value map -/

/-- The content of a table: a finite map from keys to values, as a lookup function. -/
abbrev Store := Bytes → Option Bytes

/-- Insert or replace the value of a key. -/
def Store.put (s : Store) (k v : Bytes) : Store := fun x => if x = k then some v else s x

/-- Delete a key. -/
def Store.del (s : Store) (k : Bytes) : Store := fun x => if x = k then none else s x

/-- The engine as seen through one session and one cursor: the committed table, the private
view of the running transaction (if one is running), and the key and value last set on the
cursor. -/
structure Engine where
  committed : Store
  txn : Option Store
  key : Bytes
  value : Bytes

/-- An engine holding the table `s`, with no transaction running. -/
def Engine.ofStore (s : Store) : Engine := ⟨s, none, [], []⟩

/-- The table as the session sees it: its transaction view when one is running, otherwise
the committed table. -/
def Engine.visible (e : Engine) : Store :=
  match e.txn with
  | some s => s
  | none => e.committed

/-- Change the table the session is working on: the transaction view when a transaction is
running, otherwise (autocommit) the committed table. -/
def Engine.modify (e : Engine) (f : Store → Store) : Engine :=
  match e.txn with
  | some s => { e with txn := some (f s) }
  | none => { e with committed := f e.committed }

/-- The effect of one engine call that gave return code `ev.ret`. A call that reports an error
changes nothing, except that a failed `commit_transaction` ends the transaction by rolling it
back (the WiredTiger contract: if `commit_transaction` returns an error, the transaction was
rolled back, not committed). `rollback_transaction` discards every change made since
`begin_transaction`. -/
def Engine.step (e : Engine) (ev : Event) : Engine :=
  match ev.call with
  | .begin_transaction => if ev.ret = 0 then { e with txn := some e.visible } else e
  | .set_key k => { e with key := k.bytes }
  | .set_value v => { e with value := v.bytes }
  | .update => if ev.ret = 0 then e.modify (fun s => s.put e.key e.value) else e
  | .remove => if ev.ret = 0 then e.modify (fun s => s.del e.key) else e
  | .commit_transaction =>
    if ev.ret = 0 then { e with committed := e.visible, txn := none } else { e with txn := none }
  | .rollback_transaction => { e with txn := none }

/-- Replay a sequence of engine calls. -/
def Engine.run (e : Engine) (t : List Event) : Engine := t.foldl Engine.step e

/-- The table visible after `wiredtiger_write` ran on an engine holding `s`. -/
def store_after (s : Store) (r : WriteResult) : Store := ((Engine.ofStore s).run r.trace).visible

/-- The committed table after `wiredtiger_write` ran on an engine holding `s`. -/
def committed_after (s : Store) (r : WriteResult) : Store :=
  ((Engine.ofStore s).run r.trace).committed

/-- Whether a transaction is still running after `wiredtiger_write` ran. -/
def txn_open_after (s : Store) (r : WriteResult) : Bool :=
  ((Engine.ofStore s).run r.trace).txn.isSome

/-! ## `wiredtiger_get` (jni.cpp lines 93-117) -/

/-- The `WT_CURSOR` as `wiredtiger_get` uses it: the return code of `search()` for the key item
set with `set_key`, and the return code of `get_value()` after that search with the bytes of
the item it fills in. -/
structure Cursor where
  search : WT_ITEM → Int
  get_value : WT_ITEM → Int × Bytes

/-- The length of the key item (lines 98-100): `keylen` after
`if(keylen > m) keylen = m; if(keylen < 0) keylen = 0;` with `m` the array length. -/
def get_keylen (key : Bytes) (keylen : Int) : Int :=
  let m : Int := key.length
  let keylen := if keylen > m then m else keylen
  let keylen := if keylen < 0 then 0 else keylen
  keylen

/-- The function `Java_jane_core_StorageWtDB_wiredtiger_1get`: `cursor` is the handle (none
is null), `key` the byte array (none is null), `keyptr` tells whether `GetByteArrayElements`
returned a non-null pointer. The result is the new byte array, none for null. -/
def wiredtiger_get (cursor : Option Cursor) (key : Option Bytes) (keylen : Int)
    (keyptr : Bool) : Option Bytes :=
  match cursor, key with
  | some wc, some key =>
    let keylen := get_keylen key keylen
    if keyptr = false then none
    else
      let wi : WT_ITEM := ⟨key, keylen⟩
      let r := wc.search wi
      if r ≠ 0 then none
      else
        let rv := wc.get_value wi
        if rv.1 ≠ 0 then none
        else some rv.2
  | _, _ => none

/-- The error code `WT_NOTFOUND`. -/
def WT_NOTFOUND : Int := -31803

/-- The cursor of the key-value engine: `search` succeeds exactly on the keys of the visible
table, `get_value` gives the value stored for the key. -/
def Engine.cursor (e : Engine) : Cursor where
  search k := if (e.visible k.bytes).isSome then 0 else WT_NOTFOUND
  get_value k :=
    match e.visible k.bytes with
    | some v => (0, v)
    | none => (WT_NOTFOUND, [])

/-- A point lookup of the whole key `k` with `wiredtiger_get` on a table `s`. -/
def get (s : Store) (k : Bytes) : Option Bytes :=
  wiredtiger_get (some (Engine.ofStore s).cursor) (some k) k.length true

/-! ## The iterator functions (jni.cpp lines 357-432)

As compiled, the bodies of `wiredtiger_iter_new`, `wiredtiger_iter_next` and
`wiredtiger_iter_prev` are `return 0;`. The directional seek and the stepping are present in
the source only as commented-out code written against a LevelDB-style `Iterator`
(`Seek`, `SeekToFirst`, `SeekToLast`, `Next`, `Prev`, `Valid`, `key`). Both are embedded: the
compiled functions under their own names, the commented-out bodies with the suffix
`_disabled`. -/

/-- The database behind the `handle` argument: the keys of its table, in ascending order. -/
structure DB where
  keys : List Bytes
deriving DecidableEq, Repr

/-- An iterator over a table: the keys of the table in ascending order, and the position,
`some i` for the `i`-th key and `none` for an iterator that is not valid. -/
structure Iterator where
  keys : List Bytes
  pos : Option Nat
deriving DecidableEq, Repr

/-- The call `it->Valid()`: the iterator is positioned at a key. -/
def Iterator.Valid (it : Iterator) : Bool :=
  match it.pos with
  | some i => decide (i < it.keys.length)
  | none => false

/-- The call `it->key()`: the key at the position (the iterator must be valid). -/
def Iterator.key (it : Iterator) : Bytes :=
  match it.pos with
  | some i => it.keys.getD i []
  | none => []

/-- The call `it->SeekToFirst()`: position at the first key; not valid on an empty table. -/
def Iterator.SeekToFirst (it : Iterator) : Iterator :=
  { it with pos := if it.keys.isEmpty then none else some 0 }

/-- The call `it->SeekToLast()`: position at the last key; not valid on an empty table. -/
def Iterator.SeekToLast (it : Iterator) : Iterator :=
  { it with pos := if it.keys.isEmpty then none else some (it.keys.length - 1) }

/-- The number of keys before the first key that is at or past `target`. -/
def lower_bound (target : Bytes) : List Bytes → Nat
  | [] => 0
  | k :: ks => if target ≤ k then 0 else lower_bound target ks + 1

/-- The call `it->Seek(target)`: position at the first key that is at or past `target`; not
valid when there is none. -/
def Iterator.Seek (it : Iterator) (target : Bytes) : Iterator :=
  { it with pos :=
      if lower_bound target it.keys < it.keys.length then some (lower_bound target it.keys)
      else none }

/-- The call `it->Next()` on a valid iterator: move to the next key; not valid after the
last key. -/
def Iterator.Next (it : Iterator) : Iterator :=
  match it.pos with
  | some i => { it with pos := if i + 1 < it.keys.length then some (i + 1) else none }
  | none => it

/-- The call `it->Prev()` on a valid iterator: move to the previous key; not valid before the
first key. -/
def Iterator.Prev (it : Iterator) : Iterator :=
  match it.pos with
  | some i => { it with pos := if i = 0 then none else some (i - 1) }
  | none => it

/-- The `Slice(data, size)` the bridge builds over the pinned key array: the pointer and the
length it was given, as they are. -/
structure Slice where
  data : Bytes
  size : Int
deriving DecidableEq, Repr

/-- The bytes of a slice that lie inside `data`: the first `size` of them. For `size` beyond
the length of `data` the comparison would read past the array; the seek property is stated
for `size` at most the length. -/
def Slice.bytes (sl : Slice) : Bytes := sl.data.take sl.size.toNat

/-- The call `a.compare(b)` on slices: negative, zero or positive as `a` is bytewise less than,
equal to or greater than `b`. -/
def Slice.compare (a b : Bytes) : Int := if a < b then -1 else if a = b then 0 else 1

/-- The function `Java_jane_core_StorageWtDB_wiredtiger_1iter_1new` as compiled (line 396):
the result is the null handle whatever the arguments. -/
def wiredtiger_iter_new (_handle : Option DB) (_key : Option Bytes) (_keylen _type : Int) :
    Option Iterator := none

/-- The function `Java_jane_core_StorageWtDB_wiredtiger_1iter_1next` as compiled (line 417):
the result is null and the iterator is not touched. -/
def wiredtiger_iter_next (iter : Option Iterator) : Option Bytes × Option Iterator :=
  (none, iter)

/-- The function `Java_jane_core_StorageWtDB_wiredtiger_1iter_1prev` as compiled (line 431):
the result is null and the iterator is not touched. -/
def wiredtiger_iter_prev (iter : Option Iterator) : Option Bytes × Option Iterator :=
  (none, iter)

/-- The commented-out body of `wiredtiger_iter_new` (lines 361-395). `keyptr` tells whether
`GetByteArrayElements` returned a non-null pointer; the result is the new iterator, none for
the null handle. -/
def iter_new_disabled (handle : Option DB) (key : Option Bytes) (keylen type : Int)
    (keyptr : Bool) : Option Iterator :=
  match handle with
  | none => none
  | some db =>
    if type < 0 ∨ type > 3 then none
    else
      let it : Iterator := ⟨db.keys, none⟩
      if key.isNone ∨ keylen ≤ 0 then
        if type ≥ 2 then some it.SeekToFirst
        else some it.SeekToLast
      else if keyptr = false then none
      else
        let slice : Slice := ⟨key.getD [], keylen⟩
        let it := it.Seek slice.bytes
        if it.Valid then
          let comp := Slice.compare it.key slice.bytes
          if comp = 0 then
            if type = 0 then some it.Prev
            else if type = 3 then some it.Next
            else some it
          else if type ≤ 1 then some it.Prev
          else some it
        else if type < 2 then some it.SeekToLast
        else some it

/-- The commented-out body of `wiredtiger_iter_next` (lines 410-416): the current key (null
when the handle is null or the iterator is not valid) and the iterator after the call. -/
def iter_next_disabled (iter : Option Iterator) : Option Bytes × Option Iterator :=
  match iter with
  | none => (none, none)
  | some it => if it.Valid then (some it.key, some it.Next) else (none, some it)

/-- The commented-out body of `wiredtiger_iter_prev` (lines 424-430). -/
def iter_prev_disabled (iter : Option Iterator) : Option Bytes × Option Iterator :=
  match iter with
  | none => (none, none)
  | some it => if it.Valid then (some it.key, some it.Prev) else (none, some it)

/-- The results of `n` successive calls of a stepping function on an iterator handle. -/
def drain (f : Option Iterator → Option Bytes × Option Iterator) :
    Nat → Option Iterator → List (Option Bytes)
  | 0, _ => []
  | n + 1, iter => (f iter).1 :: drain f n (f iter).2

/-! ## Vocabulary of the properties -/

/-- The key a cursor is positioned on: none for a null handle or an iterator that is not
valid. -/
def positioned (iter : Option Iterator) : Option Bytes :=
  match iter with
  | some it => if it.Valid then some it.key else none
  | none => none

/-- The key `k` satisfies the directive `type` (0, 1, 2, 3 for less than, less than or equal,
greater than or equal, greater than) against the reference key `ref`. -/
def qualifies (type : Int) (ref k : Bytes) : Prop :=
  (type = 0 ∧ k < ref) ∨ (type = 1 ∧ k ≤ ref) ∨ (type = 2 ∧ ref ≤ k) ∨ (type = 3 ∧ ref < k)

instance (type : Int) (ref k : Bytes) : Decidable (qualifies type ref k) := by
  unfold qualifies; infer_instance

/-- The position `r` is the right one for the directive: the greatest qualifying key for the
directives 0 and 1, the least qualifying key for the directives 2 and 3, and not valid only
when no key of the table qualifies. -/
def seek_answer (keys : List Bytes) (type : Int) (ref : Bytes) (r : Option Bytes) : Prop :=
  match r with
  | some k => k ∈ keys ∧ qualifies type ref k ∧
      ∀ k2 ∈ keys, qualifies type ref k2 → if type ≤ 1 then k2 ≤ k else k ≤ k2
  | none => ∀ k2 ∈ keys, ¬ qualifies type ref k2

instance (keys : List Bytes) (type : Int) (ref : Bytes) (r : Option Bytes) :
    Decidable (seek_answer keys type ref r) := by
  unfold seek_answer; cases r <;> infer_instance

/-- The table with the keys 10, 20 and 30. -/
def db123 : DB := ⟨[[10], [20], [30]]⟩


/-- The number of calls of `c` in a trace. -/
def n_calls (c : Call) (t : List Event) : Nat := (t.filter (fun ev => decide (ev.call = c))).length

/-- Some `update` or `remove` call of the trace returned an error. -/
def op_failed (t : List Event) : Bool :=
  t.any (fun ev => decide ((ev.call = .update ∨ ev.call = .remove) ∧ ev.ret ≠ 0))

/-- The lookup initialisation is successful: the static `s_err` is already 0, or this is the
first call and the classes, methods and fields are all found. -/
def init_ok (env : WriteEnv) : Prop :=
  env.s_err = 0 ∨ (env.s_err < 0 ∧ env.classes = true ∧ env.members = true)

instance (env : WriteEnv) : Decidable (init_ok env) := by
  unfold init_ok; infer_instance

/-- An absent or empty byte string: the object is null, it has no buffer, or its length is zero
or less. -/
def absent_or_empty (o : Option Octets) : Bool :=
  match o with
  | none => true
  | some o => o.buffer.isNone || decide (o.count ≤ 0)

/-- A present but empty byte string: the object is there, but it has no buffer or its length
is zero or less. -/
def present_empty (o : Option Octets) : Bool := o.isSome && absent_or_empty o

/-- The byte string an `Octets` object stands for: the first `count` bytes of its buffer. -/
def Octets.bytes (o : Octets) : Bytes := (o.buffer.getD []).take o.count.toNat

/-- The item the bridge builds from an `Octets`: its buffer as `data`, its count as `size`. -/
def Octets.item (o : Octets) : WT_ITEM := ⟨o.buffer.getD [], o.count⟩

/-- The count of an `Octets` does not exceed the length of its buffer, as the Java class
keeps it. -/
def Octets.in_bounds (o : Octets) : Bool :=
  match o.buffer with
  | some b => decide (o.count ≤ b.length)
  | none => true

/-- The key and the value of an entry, when present, have their counts within their
buffers. -/
def Entry.in_bounds (e : Entry) : Bool := e.key.all Octets.in_bounds && e.value.all Octets.in_bounds

/-- The byte string of a possibly null `Octets`. -/
def bytes_of (o : Option Octets) : Bytes :=
  match o with
  | none => []
  | some o => o.bytes

/-- The number `keylen` clamped into the range from 0 to the array length `len`. -/
def clamp (keylen : Int) (len : Nat) : Nat := (max 0 (min keylen len)).toNat

/-- The effect of one record on a table: a record with an absent or empty key is a no-op, a
record with an absent or empty value deletes its key, a record with a non-empty value upserts
its key. -/
def apply_record (s : Store) (r : Entry) : Store :=
  if absent_or_empty r.key = true then s
  else if absent_or_empty r.value = true then s.del (bytes_of r.key)
  else s.put (bytes_of r.key) (bytes_of r.value)

/-- The left-to-right fold of the records over a table. -/
def apply_records (s : Store) (rs : List Entry) : Store := rs.foldl apply_record s

/-- The effect of one turn of the iterator on a table: as `apply_record`, except that a record
with a non-empty key whose key buffer cannot be pinned, or with a non-empty value whose value
buffer cannot be pinned, is a no-op. -/
def apply_step (s : Store) (st : Step) : Store :=
  if absent_or_empty st.entry.key = true then s
  else if st.keyptr = false then s
  else if absent_or_empty st.entry.value = true then s.del (bytes_of st.entry.key)
  else if st.valptr = false then s
  else s.put (bytes_of st.entry.key) (bytes_of st.entry.value)

/-- The left-to-right fold of the turns over a table. -/
def apply_steps (s : Store) (steps : List Step) : Store := steps.foldl apply_step s

/-- The item built from a possibly null `Octets`. -/
def item_of (o : Option Octets) : WT_ITEM :=
  match o with
  | none => ⟨[], 0⟩
  | some o => o.item

/-- The engine operation an entry leads to. -/
inductive Op where
  | update
  | remove_empty
  | remove_absent
deriving DecidableEq, Repr

/-- The engine operation issued for an entry, if any: none when the key is absent or empty or
a buffer cannot be pinned, an update for a non-empty value, a remove for a present-but-empty
value, a remove for an absent value. -/
def Step.op (st : Step) : Option Op :=
  if absent_or_empty st.entry.key = true ∨ st.keyptr = false then none
  else if st.entry.value.isNone = true then some .remove_absent
  else if absent_or_empty st.entry.value = true then some .remove_empty
  else if st.valptr = true then some .update
  else none

/-- The entry issues an operation and the engine reports an error for it. -/
def Step.fails (st : Step) : Bool := st.op.isSome && decide (st.op_ret ≠ 0)

/-- The operation of the first entry whose operation fails, if any. -/
def first_failure (steps : List Step) : Option Op := (steps.find? Step.fails).bind Step.op

/-- The status reported for a failed operation. -/
def Op.code : Op → Int
  | .update => 7
  | .remove_empty => 8
  | .remove_absent => 9

/-! ## Sample inputs -/

/-- An `Octets` holding exactly the bytes `b`. -/
def Octets.of (b : Bytes) : Octets := ⟨some b, b.length⟩

/-- A turn carrying the record `(k, v)`, with both buffers pinned and `ret` as the return code
of its engine operation. -/
def Step.upsert (k v : Bytes) (ret : Int) : Step :=
  ⟨⟨some (Octets.of k), some (Octets.of v)⟩, true, true, ret⟩

/-- A turn carrying the record `(k, present-empty-bytes)`: the value object is there, with a
buffer and length zero. -/
def Step.delete_empty (k : Bytes) (ret : Int) : Step :=
  ⟨⟨some (Octets.of k), some (Octets.of [])⟩, true, true, ret⟩

/-- A turn carrying the record `(k, absent)`. -/
def Step.delete (k : Bytes) (ret : Int) : Step := ⟨⟨some (Octets.of k), none⟩, true, true, ret⟩

/-- The first call in a process, with every lookup found and an engine that accepts
`begin_transaction` and `commit_transaction`. -/
def env_ok : WriteEnv := ⟨-1, true, true, 0, 0⟩

/-- The empty table. -/
def Store.empty : Store := fun _ => none

/-! ## Basic facts -/

theorem get_keylen_length (k : Bytes) : get_keylen k k.length = k.length := by
  simp only [get_keylen]
  split_ifs <;> omega

theorem get_eq (s : Store) (k : Bytes) : get s k = s k := by
  have hk : (⟨k, get_keylen k k.length⟩ : WT_ITEM).bytes = k := by
    simp [WT_ITEM.bytes, get_keylen_length]
  unfold get wiredtiger_get
  cases h : s k <;> simp [Engine.cursor, Engine.visible, Engine.ofStore, hk, h, WT_NOTFOUND]

/-- The shapes the loop body can take. -/
theorem write_entry_cases (st : Step) :
    write_entry st = ([], none) ∨
    (∃ k v, st.op_ret = 0 ∧
      write_entry st = ([⟨.set_key k, 0⟩, ⟨.set_value v, 0⟩, ⟨.update, 0⟩], none)) ∨
    (∃ k v, st.op_ret ≠ 0 ∧
      write_entry st = ([⟨.set_key k, 0⟩, ⟨.set_value v, 0⟩, ⟨.update, st.op_ret⟩,
        ⟨.rollback_transaction, 0⟩], some 7)) ∨
    (∃ k, st.op_ret = 0 ∧ write_entry st = ([⟨.set_key k, 0⟩, ⟨.remove, 0⟩], none)) ∨
    (∃ k c, st.op_ret ≠ 0 ∧ (c = 8 ∨ c = 9) ∧
      write_entry st = ([⟨.set_key k, 0⟩, ⟨.remove, st.op_ret⟩,
        ⟨.rollback_transaction, 0⟩], some c)) := by
  rcases st with ⟨⟨key, value⟩, kp, vp, r⟩
  by_cases hr : r = 0
  · cases key <;> cases value <;> simp only [write_entry] <;> (try split_ifs) <;> simp_all
  · cases key <;> cases value <;> simp only [write_entry] <;> (try split_ifs) <;> simp_all

theorem run_append (e : Engine) (t u : List Event) : e.run (t ++ u) = (e.run t).run u := by
  simp [Engine.run, List.foldl_append]

theorem run_cons (e : Engine) (ev : Event) (t : List Event) :
    e.run (ev :: t) = (e.step ev).run t := rfl

theorem run_nil (e : Engine) : e.run [] = e := rfl

@[simp] theorem n_calls_nil (c : Call) : n_calls c [] = 0 := rfl

theorem n_calls_append (c : Call) (t u : List Event) :
    n_calls c (t ++ u) = n_calls c t + n_calls c u := by
  simp [n_calls, List.filter_append]

theorem n_calls_cons (c : Call) (ev : Event) (t : List Event) :
    n_calls c (ev :: t) = (if ev.call = c then 1 else 0) + n_calls c t := by
  simp only [n_calls, List.filter_cons]
  split_ifs <;> simp_all <;> omega

theorem op_failed_append (t u : List Event) :
    op_failed (t ++ u) = (op_failed t || op_failed u) := by
  simp [op_failed, List.any_append]

/-- How a call of `wiredtiger_write` can end: before `begin_transaction`, at a failed
`begin_transaction`, or in the loop and commit. -/
theorem write_result_cases (env : WriteEnv) (session cursor : Int) (it : Option JObject) :
    ((wiredtiger_write env session cursor it).trace = [] ∧
      (wiredtiger_write env session cursor it).status ≠ 0 ∧
      (wiredtiger_write env session cursor it).reads = 0) ∨
    (env.begin_ret ≠ 0 ∧
      (wiredtiger_write env session cursor it).trace = [⟨.begin_transaction, env.begin_ret⟩] ∧
      (wiredtiger_write env session cursor it).status = 6 ∧
      (wiredtiger_write env session cursor it).reads = 0) ∨
    (∃ j, it = some j ∧ env.begin_ret = 0 ∧
      (wiredtiger_write env session cursor it).trace =
        ⟨.begin_transaction, 0⟩ :: (write_loop env.commit_ret j.steps).2.2 ∧
      (wiredtiger_write env session cursor it).status = (write_loop env.commit_ret j.steps).1 ∧
      (wiredtiger_write env session cursor it).reads =
        (write_loop env.commit_ret j.steps).2.1) := by
  cases it with
  | none => simp [wiredtiger_write]
  | some j =>
    simp only [wiredtiger_write, write_body]
    split_ifs <;> simp_all <;> omega

/-- With valid handles, a successful lookup initialisation and an iterator object, the call
reaches `begin_transaction`. -/
theorem write_reaches_begin (env : WriteEnv) (session cursor : Int) (j : JObject)
    (hs : session ≠ 0) (hc : cursor ≠ 0) (hi : init_ok env) (hj : j.is_iterator = true) :
    wiredtiger_write env session cursor (some j) = write_body env 0 j ∧
    write_body env 0 j =
      if env.begin_ret ≠ 0 then ⟨6, 0, 0, [⟨.begin_transaction, env.begin_ret⟩]⟩
      else ⟨(write_loop env.commit_ret j.steps).1, 0, (write_loop env.commit_ret j.steps).2.1,
        ⟨.begin_transaction, env.begin_ret⟩ :: (write_loop env.commit_ret j.steps).2.2⟩ := by
  constructor
  · rcases hi with h0 | ⟨hneg, hcl, hm⟩
    · simp [wiredtiger_write, hs, hc, h0]
    · simp [wiredtiger_write, hs, hc, hneg, hcl, hm]
  · simp [write_body, hj]

theorem write_loop_cons_none (cr : Int) (st : Step) (rest : List Step) (evs : List Event)
    (h : write_entry st = (evs, none)) :
    write_loop cr (st :: rest) =
      ((write_loop cr rest).1, (write_loop cr rest).2.1 + 1, evs ++ (write_loop cr rest).2.2) := by
  simp [write_loop, h]

theorem write_loop_cons_some (cr : Int) (st : Step) (rest : List Step) (evs : List Event)
    (c : Int) (h : write_entry st = (evs, some c)) :
    write_loop cr (st :: rest) = (c, 1, evs) := by
  simp [write_loop, h]

/-! ## The loop and the engine -/

/-- An iteration that does not return keeps the committed table and the transaction open. -/
theorem run_entry_none (st : Step) (evs : List Event) (h : write_entry st = (evs, none))
    (e : Engine) (v : Store) (ht : e.txn = some v) :
    (e.run evs).committed = e.committed ∧ ∃ w, (e.run evs).txn = some w := by
  rcases write_entry_cases st with h1 | ⟨k, x, _, h1⟩ | ⟨k, x, _, h1⟩ | ⟨k, _, h1⟩ |
    ⟨k, c, _, _, h1⟩ <;> rw [h] at h1 <;> simp only [Prod.mk.injEq] at h1
  · rw [h1.1]; exact ⟨rfl, v, ht⟩
  · rw [h1.1]; simp [Engine.run, Engine.step, Engine.modify, ht]
  · simp at h1
  · rw [h1.1]; simp [Engine.run, Engine.step, Engine.modify, ht]
  · simp at h1

/-- An iteration that returns has rolled the transaction back. -/
theorem run_entry_some (st : Step) (evs : List Event) (c : Int)
    (h : write_entry st = (evs, some c)) (e : Engine) :
    c ≠ 0 ∧ (e.run evs).committed = e.committed ∧ (e.run evs).txn = none := by
  rcases write_entry_cases st with h1 | ⟨k, x, _, h1⟩ | ⟨k, x, hr, h1⟩ | ⟨k, _, h1⟩ |
    ⟨k, d, hr, hd, h1⟩ <;> rw [h] at h1 <;> simp only [Prod.mk.injEq] at h1
  · simp at h1
  · simp at h1
  · obtain ⟨h2, h3⟩ := h1
    simp only [Option.some.injEq] at h3
    subst h3 h2
    simp [Engine.run, Engine.step, hr]
  · simp at h1
  · obtain ⟨h2, h3⟩ := h1
    simp only [Option.some.injEq] at h3
    subst h3 h2
    refine ⟨by rcases hd with hd | hd <;> simp [hd], ?_⟩
    simp [Engine.run, Engine.step, hr]

/-- A failed loop leaves the committed table as it was, with no transaction running. -/
theorem run_loop_failure (cr : Int) (steps : List Step) :
    ∀ (e : Engine) (v : Store), e.txn = some v → (write_loop cr steps).1 ≠ 0 →
      (e.run (write_loop cr steps).2.2).visible = e.committed := by
  induction steps with
  | nil =>
    intro e v _ hne
    have hcr : cr ≠ 0 := by
      intro h0
      simp [write_loop, h0] at hne
    simp [write_loop, Engine.run, Engine.step, Engine.visible, hcr]
  | cons st rest ih =>
    intro e v ht hne
    rcases hw : write_entry st with ⟨evs, _ | c⟩
    · rw [write_loop_cons_none cr st rest evs hw] at hne ⊢
      obtain ⟨hc, w, hw2⟩ := run_entry_none st evs hw e v ht
      simp only [run_append]
      rw [ih (e.run evs) w hw2 hne, hc]
    · rw [write_loop_cons_some cr st rest evs c hw]
      obtain ⟨_, hc, ht2⟩ := run_entry_some st evs c hw e
      simp [Engine.visible, ht2, hc]

/-- The commit and rollback calls of the loop. -/
theorem loop_calls (cr : Int) (steps : List Step) :
    (op_failed (write_loop cr steps).2.2 = false →
      n_calls .commit_transaction (write_loop cr steps).2.2 = 1 ∧
      n_calls .rollback_transaction (write_loop cr steps).2.2 = 0) ∧
    (op_failed (write_loop cr steps).2.2 = true →
      n_calls .commit_transaction (write_loop cr steps).2.2 = 0 ∧
      n_calls .rollback_transaction (write_loop cr steps).2.2 = 1) := by
  induction steps with
  | nil => simp [write_loop, op_failed, n_calls]
  | cons st rest ih =>
    rcases write_entry_cases st with h1 | ⟨k, x, _, h1⟩ | ⟨k, x, hr, h1⟩ | ⟨k, _, h1⟩ |
      ⟨k, d, hr, hd, h1⟩
    · rw [write_loop_cons_none cr st rest _ h1]
      simpa using ih
    · rw [write_loop_cons_none cr st rest _ h1]
      simp only [op_failed_append, n_calls_append]
      simpa [op_failed, n_calls] using ih
    · rw [write_loop_cons_some cr st rest _ _ h1]
      simp [op_failed, n_calls, hr]
    · rw [write_loop_cons_none cr st rest _ h1]
      simp only [op_failed_append, n_calls_append]
      simpa [op_failed, n_calls] using ih
    · rw [write_loop_cons_some cr st rest _ _ h1]
      simp [op_failed, n_calls, hr]

theorem loop_status_of_failed (cr : Int) (steps : List Step) :
    op_failed (write_loop cr steps).2.2 = true → (write_loop cr steps).1 ≠ 0 := by
  induction steps with
  | nil => simp [write_loop, op_failed]
  | cons st rest ih =>
    rcases hw : write_entry st with ⟨evs, _ | c⟩
    · rw [write_loop_cons_none cr st rest evs hw]
      rcases write_entry_cases st with h1 | ⟨k, x, _, h1⟩ | ⟨k, x, hr, h1⟩ | ⟨k, _, h1⟩ |
        ⟨k, d, hr, hd, h1⟩ <;> rw [hw] at h1 <;> simp only [Prod.mk.injEq] at h1
      · rw [h1.1]; simpa using ih
      · rw [h1.1]; simpa [op_failed_append, op_failed] using ih
      · simp at h1
      · rw [h1.1]; simpa [op_failed_append, op_failed] using ih
      · simp at h1
    · rw [write_loop_cons_some cr st rest evs c hw]
      intro _
      exact (run_entry_some st evs c hw (Engine.ofStore (fun _ => none))).1

/-- A skipped entry does not change the status or the engine calls of the loop. -/
theorem loop_skip (cr : Int) (st : Step) (post : List Step) (h : write_entry st = ([], none)) :
    ∀ pre : List Step,
      (write_loop cr (pre ++ st :: post)).1 = (write_loop cr (pre ++ post)).1 ∧
      (write_loop cr (pre ++ st :: post)).2.2 = (write_loop cr (pre ++ post)).2.2 := by
  intro pre
  induction pre with
  | nil => simp [write_loop_cons_none cr st post [] h]
  | cons p pre ih =>
    rcases hw : write_entry p with ⟨evs, _ | c⟩
    · simp only [List.cons_append]
      rw [write_loop_cons_none cr p _ evs hw, write_loop_cons_none cr p _ evs hw]
      simp [ih.1, ih.2]
    · simp only [List.cons_append]
      rw [write_loop_cons_some cr p _ evs c hw, write_loop_cons_some cr p _ evs c hw]
      simp

theorem write_entry_skipped (st : Step) (hk : absent_or_empty st.entry.key = true) :
    write_entry st = ([], none) := by
  rcases st with ⟨⟨key, value⟩, kp, vp, r⟩
  cases key with
  | none => simp [write_entry]
  | some key =>
    simp only [absent_or_empty, Bool.or_eq_true, decide_eq_true_eq, Option.isNone_iff_eq_none]
      at hk
    simp only [write_entry]
    rw [if_neg]
    rintro ⟨h1, h2⟩
    rcases hk with hk | hk
    · simp [hk] at h1
    · omega

/-- The status code the loop body returns, in terms of the operation of the entry. -/
theorem write_entry_code (st : Step) :
    (write_entry st).2 = if st.fails = true then st.op.map Op.code else none := by
  rcases st with ⟨⟨key, value⟩, kp, vp, r⟩
  rcases key with _ | ⟨kb, kc⟩
  · simp [write_entry, Step.fails, Step.op, absent_or_empty]
  rcases kb with _ | kb
  · simp [write_entry, Step.fails, Step.op, absent_or_empty]
  by_cases hkc : kc > 0
  swap
  · have : kc ≤ 0 := by omega
    simp [write_entry, Step.fails, Step.op, absent_or_empty, hkc, this]
  have hkc2 : ¬ kc ≤ 0 := by omega
  cases kp
  · simp [write_entry, Step.fails, Step.op, absent_or_empty, hkc]
  by_cases hr : r = 0
  · rcases value with _ | ⟨vb, vc⟩
    · simp [write_entry, Step.fails, Step.op, absent_or_empty, hkc, hkc2, hr]
    · simp only [write_entry, Step.fails, hr]
      split_ifs <;> simp_all
  rcases value with _ | ⟨vb, vc⟩
  · simp [write_entry, Step.fails, Step.op, absent_or_empty, hkc, hkc2, hr, Op.code]
  rcases vb with _ | vb
  · simp [write_entry, Step.fails, Step.op, absent_or_empty, hkc, hkc2, hr, Op.code]
  by_cases hvc : vc > 0
  swap
  · have : vc ≤ 0 := by omega
    simp [write_entry, Step.fails, Step.op, absent_or_empty, hkc, hkc2, hr, Op.code, hvc, this]
  have hvc2 : ¬ vc ≤ 0 := by omega
  cases vp <;>
    simp [write_entry, Step.fails, Step.op, absent_or_empty, hkc, hkc2, hr, Op.code, hvc, hvc2]

theorem first_failure_cons (st : Step) (rest : List Step) :
    first_failure (st :: rest) = if st.fails = true then st.op else first_failure rest := by
  by_cases h : st.fails = true <;> simp [first_failure, List.find?_cons, h]

/-- The status of the loop: the code of the first failing operation, otherwise the outcome of
the commit. -/
theorem loop_status (cr : Int) (steps : List Step) :
    (write_loop cr steps).1 =
      match first_failure steps with
      | some op => op.code
      | none => if cr ≠ 0 then 5 else 0 := by
  induction steps with
  | nil => simp [write_loop, first_failure]
  | cons st rest ih =>
    have hcode := write_entry_code st
    rw [first_failure_cons]
    by_cases hf : st.fails = true
    · rw [if_pos hf] at hcode ⊢
      have hsome : st.op.isSome = true := by
        simp only [Step.fails, Bool.and_eq_true] at hf
        exact hf.1
      obtain ⟨op, hop⟩ := Option.isSome_iff_exists.mp hsome
      rw [hop] at hcode ⊢
      rcases hw : write_entry st with ⟨evs, c⟩
      rw [hw] at hcode
      simp only [Option.map_some'] at hcode
      subst hcode
      rw [write_loop_cons_some cr st rest evs _ hw]
    · rw [if_neg hf] at hcode ⊢
      rcases hw : write_entry st with ⟨evs, c⟩
      rw [hw] at hcode
      simp only at hcode
      subst hcode
      rw [write_loop_cons_none cr st rest evs hw]
      exact ih

theorem first_failure_none_iff (steps : List Step) :
    first_failure steps = none ↔ ∀ st ∈ steps, st.op ≠ none → st.op_ret = 0 := by
  induction steps with
  | nil => simp [first_failure]
  | cons st rest ih =>
    rw [first_failure_cons]
    by_cases hf : st.fails = true
    · rw [if_pos hf]
      simp only [Step.fails, Bool.and_eq_true, decide_eq_true_eq] at hf
      constructor
      · intro h
        rw [h] at hf
        simp at hf
      · intro h
        have := h st (List.mem_cons_self _ _) (by
          intro h0
          rw [h0] at hf
          simp at hf)
        exact absurd this hf.2
    · rw [if_neg hf, ih]
      simp only [Step.fails, Bool.and_eq_true, decide_eq_true_eq, not_and, not_not] at hf
      constructor
      · intro h x hx
        rcases List.mem_cons.mp hx with rfl | hx
        · intro hne
          exact hf (by
            cases hop : x.op with
            | none => exact absurd hop hne
            | some _ => rfl)
        · exact h x hx
      · intro h x hx
        exact h x (List.mem_cons_of_mem _ hx)

/-- The loop body for an entry with a non-empty key and an absent or empty value. -/
theorem write_entry_remove (st : Step) (hk : absent_or_empty st.entry.key = false)
    (hp : st.keyptr = true) (hv : absent_or_empty st.entry.value = true) :
    write_entry st =
      if st.op_ret ≠ 0 then
        ([⟨.set_key (item_of st.entry.key), 0⟩, ⟨.remove, st.op_ret⟩,
          ⟨.rollback_transaction, 0⟩], some (if st.entry.value.isSome = true then 8 else 9))
      else ([⟨.set_key (item_of st.entry.key), 0⟩, ⟨.remove, st.op_ret⟩], none) := by
  rcases st with ⟨⟨key, value⟩, kp, vp, r⟩
  simp only at hk hp hv
  subst hp
  rcases key with _ | ⟨kb, kc⟩
  · simp [absent_or_empty] at hk
  rcases kb with _ | kb
  · simp [absent_or_empty] at hk
  have hkc : kc > 0 := by
    simp [absent_or_empty] at hk
    exact hk
  rcases value with _ | ⟨vb, vc⟩
  · by_cases hr : r = 0 <;> simp [write_entry, hkc, hr, item_of, Octets.item]
  · have hvv : ¬ (vb.isSome = true ∧ vc > 0) := by
      rintro ⟨h1, h2⟩
      rcases vb with _ | vb
      · simp at h1
      · simp [absent_or_empty] at hv
        omega
    by_cases hr : r = 0 <;> simp [write_entry, hkc, hr, item_of, Octets.item, hvv]

/-- The loop body for an entry with a non-empty key and a non-empty value. -/
theorem write_entry_update (st : Step) (hk : absent_or_empty st.entry.key = false)
    (hp : st.keyptr = true) (hv : absent_or_empty st.entry.value = false)
    (hq : st.valptr = true) :
    write_entry st =
      if st.op_ret ≠ 0 then
        ([⟨.set_key (item_of st.entry.key), 0⟩, ⟨.set_value (item_of st.entry.value), 0⟩,
          ⟨.update, st.op_ret⟩, ⟨.rollback_transaction, 0⟩], some 7)
      else ([⟨.set_key (item_of st.entry.key), 0⟩,
          ⟨.set_value (item_of st.entry.value), 0⟩, ⟨.update, st.op_ret⟩], none) := by
  rcases st with ⟨⟨key, value⟩, kp, vp, r⟩
  simp only at hk hp hv hq
  subst hp hq
  rcases key with _ | ⟨kb, kc⟩
  · simp [absent_or_empty] at hk
  rcases kb with _ | kb
  · simp [absent_or_empty] at hk
  have hkc : kc > 0 := by
    simp [absent_or_empty] at hk
    exact hk
  rcases value with _ | ⟨vb, vc⟩
  · simp [absent_or_empty] at hv
  rcases vb with _ | vb
  · simp [absent_or_empty] at hv
  have hvc : vc > 0 := by
    simp [absent_or_empty] at hv
    exact hv
  by_cases hr : r = 0 <;> simp [write_entry, hkc, hvc, hr, item_of, Octets.item]

theorem absent_or_empty_of (k : Bytes) (hk : k ≠ []) :
    absent_or_empty (some (Octets.of k)) = false := by
  cases k with
  | nil => exact absurd rfl hk
  | cons a l =>
    simp only [absent_or_empty, Octets.of, Option.isNone_some, Bool.false_or, List.length_cons,
      decide_eq_false_iff_not]
    push_cast
    omega

theorem bytes_of_of (k : Bytes) : bytes_of (some (Octets.of k)) = k := by
  simp [bytes_of, Octets.bytes, Octets.of]

theorem item_of_bytes (o : Option Octets) : (item_of o).bytes = bytes_of o := by
  cases o <;> simp [item_of, bytes_of, Octets.item, Octets.bytes, WT_ITEM.bytes]

/-- An entry whose key buffer cannot be pinned makes no engine call. -/
theorem write_entry_unpinned_key (st : Step) (hp : st.keyptr = false) :
    write_entry st = ([], none) := by
  rcases st with ⟨⟨key, value⟩, kp, vp, r⟩
  simp only at hp
  subst hp
  cases key <;> simp [write_entry]

/-- An entry with a non-empty value whose value buffer cannot be pinned makes no engine call. -/
theorem write_entry_unpinned_value (st : Step) (hv : absent_or_empty st.entry.value = false)
    (hq : st.valptr = false) : write_entry st = ([], none) := by
  rcases st with ⟨⟨key, value⟩, kp, vp, r⟩
  simp only at hv hq
  subst hq
  rcases value with _ | ⟨vb, vc⟩
  · simp [absent_or_empty] at hv
  rcases vb with _ | vb
  · simp [absent_or_empty] at hv
  have hvc : vc > 0 := by
    simp [absent_or_empty] at hv
    exact hv
  cases key <;> simp only [write_entry] <;> (try split_ifs) <;> simp_all

/-- An iteration that does not return changes the transaction view as `apply_step` says. -/
theorem run_entry_apply (st : Step) (evs : List Event) (h : write_entry st = (evs, none))
    (e : Engine) (v : Store) (ht : e.txn = some v) :
    (e.run evs).committed = e.committed ∧
    (e.run evs).txn = some (apply_step v st) := by
  have hnil : evs = [] → (e.run evs).committed = e.committed ∧ (e.run evs).txn = some v := by
    intro h0
    rw [h0]
    exact ⟨rfl, ht⟩
  cases hk : absent_or_empty st.entry.key
  · cases hp : st.keyptr
    · have hw := write_entry_unpinned_key st hp
      rw [h] at hw
      simp only [Prod.mk.injEq] at hw
      simpa [apply_step, hk, hp] using hnil hw.1
    · cases hv : absent_or_empty st.entry.value
      · cases hq : st.valptr
        · have hw := write_entry_unpinned_value st hv hq
          rw [h] at hw
          simp only [Prod.mk.injEq] at hw
          simpa [apply_step, hk, hp, hv, hq] using hnil hw.1
        · have hw := write_entry_update st hk hp hv hq
          rw [h] at hw
          by_cases hr : st.op_ret = 0
          · simp only [hr, ne_eq, not_true_eq_false, if_false, Prod.mk.injEq] at hw
            rw [hw.1]
            simp [Engine.run, Engine.step, Engine.modify, ht, apply_step, hk, hp, hv, hq,
              item_of_bytes]
          · simp [hr] at hw
      · have hw := write_entry_remove st hk hp hv
        rw [h] at hw
        by_cases hr : st.op_ret = 0
        · simp only [hr, ne_eq, not_true_eq_false, if_false, Prod.mk.injEq] at hw
          rw [hw.1]
          simp [Engine.run, Engine.step, Engine.modify, ht, apply_step, hk, hp, hv,
            item_of_bytes]
        · simp [hr] at hw
  · have hw := write_entry_skipped st hk
    rw [h] at hw
    simp only [Prod.mk.injEq] at hw
    simpa [apply_step, hk] using hnil hw.1

/-- A successful loop commits the fold of the turns over the transaction view and leaves no
transaction running. -/
theorem run_loop_success (cr : Int) (steps : List Step) :
    ∀ (e : Engine) (v : Store), e.txn = some v → (write_loop cr steps).1 = 0 →
      (e.run (write_loop cr steps).2.2).committed = apply_steps v steps ∧
      (e.run (write_loop cr steps).2.2).txn = none := by
  induction steps with
  | nil =>
    intro e v ht h0
    have hcr : cr = 0 := by
      by_contra hne
      simp [write_loop, hne] at h0
    simp [write_loop, Engine.run, Engine.step, Engine.visible, hcr, ht, apply_steps]
  | cons st rest ih =>
    intro e v ht h0
    rcases hw : write_entry st with ⟨evs, _ | c⟩
    · rw [write_loop_cons_none cr st rest evs hw] at h0 ⊢
      obtain ⟨_, ht2⟩ := run_entry_apply st evs hw e v ht
      simp only [run_append]
      have := ih (e.run evs) _ ht2 h0
      simpa [apply_steps] using this
    · rw [write_loop_cons_some cr st rest evs c hw] at h0
      simp only at h0
      exact absurd h0 (run_entry_some st evs c hw e).1

/-- With every buffer pinned, the fold of the turns is the fold of their records. -/
theorem apply_steps_pinned (steps : List Step) :
    ∀ s : Store, (∀ st ∈ steps, st.keyptr = true ∧ st.valptr = true) →
      apply_steps s steps = apply_records s (steps.map Step.entry) := by
  induction steps with
  | nil => intro s _; rfl
  | cons st rest ih =>
    intro s hpin
    obtain ⟨hp, hq⟩ := hpin st (List.mem_cons_self _ _)
    have hstep : apply_step s st = apply_record s st.entry := by
      simp only [apply_step, apply_record, hp, hq]
      split_ifs <;> simp_all
    simp only [apply_steps, apply_records, List.foldl_cons, List.map_cons, hstep]
    exact ih _ (fun x hx => hpin x (List.mem_cons_of_mem _ hx))

/-- Entries with the same engine calls and the same decision to return give the same trace
of the loop. -/
theorem loop_congr (cr : Int) (a b : Step) (post : List Step)
    (h1 : (write_entry a).1 = (write_entry b).1)
    (h2 : (write_entry a).2.isSome = (write_entry b).2.isSome) :
    ∀ pre : List Step,
      (write_loop cr (pre ++ a :: post)).2 = (write_loop cr (pre ++ b :: post)).2 := by
  intro pre
  induction pre with
  | nil =>
    rcases ha : write_entry a with ⟨ea, _ | ca⟩ <;> rcases hb : write_entry b with ⟨eb, _ | cb⟩
      <;> rw [ha, hb] at h1 h2 <;> simp only at h1 <;> simp only [Option.isSome_none,
        Option.isSome_some] at h2
    · subst h1
      simp [write_loop_cons_none cr a post _ ha, write_loop_cons_none cr b post _ hb]
    · simp at h2
    · simp at h2
    · subst h1
      simp [write_loop_cons_some cr a post _ _ ha, write_loop_cons_some cr b post _ _ hb]
  | cons p pre ih =>
    rcases hw : write_entry p with ⟨evs, _ | c⟩
    · simp only [List.cons_append]
      rw [write_loop_cons_none cr p _ evs hw, write_loop_cons_none cr p _ evs hw]
      simp [ih]
    · simp only [List.cons_append]
      rw [write_loop_cons_some cr p _ evs c hw, write_loop_cons_some cr p _ evs c hw]

/-- A successful call has committed the fold of the turns and left no transaction running. -/
theorem write_success_store (env : WriteEnv) (session cursor : Int) (s : Store) :
    ∀ j : JObject, (wiredtiger_write env session cursor (some j)).status = 0 →
      committed_after s (wiredtiger_write env session cursor (some j)) =
        apply_steps s j.steps ∧
      txn_open_after s (wiredtiger_write env session cursor (some j)) = false ∧
      store_after s (wiredtiger_write env session cursor (some j)) = apply_steps s j.steps := by
  intro j h0
  rcases write_result_cases env session cursor (some j) with ⟨_, hne, _⟩ | ⟨_, _, h6, _⟩ |
    ⟨j2, hj, hb, ht, hst, _⟩
  · exact absurd h0 hne
  · rw [h6] at h0
    simp at h0
  · simp only [Option.some.injEq] at hj
    subst hj
    rw [hst] at h0
    obtain ⟨h1, h2⟩ := run_loop_success env.commit_ret j.steps
      ((Engine.ofStore s).step ⟨.begin_transaction, 0⟩) s
      (by simp [Engine.step, Engine.visible, Engine.ofStore]) h0
    simp only [committed_after, txn_open_after, store_after, ht, run_cons, Engine.visible]
    rw [h2, h1]
    simp

/-- An entry with a present-but-empty value makes the same engine calls as the entry with the
value absent, and returns from the loop in the same cases. -/
theorem write_entry_empty_as_absent (st : Step) (hv : present_empty st.entry.value = true) :
    (write_entry ⟨⟨st.entry.key, none⟩, st.keyptr, st.valptr, st.op_ret⟩).1 =
      (write_entry st).1 ∧
    (write_entry ⟨⟨st.entry.key, none⟩, st.keyptr, st.valptr, st.op_ret⟩).2.isSome =
      (write_entry st).2.isSome ∧
    ∀ ev ∈ (write_entry st).1, ev.call ≠ .update ∧ ∀ v, ev.call ≠ .set_value v := by
  simp only [present_empty, Bool.and_eq_true] at hv
  obtain ⟨hsome, hv⟩ := hv
  have hn : absent_or_empty none = true := rfl
  cases hk : absent_or_empty st.entry.key
  · cases hp : st.keyptr
    · rw [write_entry_unpinned_key st hp,
        write_entry_unpinned_key ⟨⟨st.entry.key, none⟩, false, st.valptr, st.op_ret⟩ rfl]
      simp
    · rw [write_entry_remove st hk hp hv,
        write_entry_remove ⟨⟨st.entry.key, none⟩, true, st.valptr, st.op_ret⟩ hk rfl hn]
      by_cases hr : st.op_ret = 0 <;> simp [hr]
  · rw [write_entry_skipped st hk,
      write_entry_skipped ⟨⟨st.entry.key, none⟩, st.keyptr, st.valptr, st.op_ret⟩ hk]
    simp

/-- A loop that fails before the commit does not call `commit_transaction`. -/
theorem loop_no_commit (cr : Int) (steps : List Step) :
    (write_loop cr steps).1 ≠ 0 → (write_loop cr steps).1 ≠ 5 →
      n_calls .commit_transaction (write_loop cr steps).2.2 = 0 := by
  induction steps with
  | nil =>
    intro h0 h5
    by_cases hcr : cr = 0 <;> simp [write_loop, hcr] at h0 h5
  | cons st rest ih =>
    intro h0 h5
    rcases write_entry_cases st with h1 | ⟨k, x, _, h1⟩ | ⟨k, x, hr, h1⟩ | ⟨k, _, h1⟩ |
      ⟨k, d, hr, hd, h1⟩
    · rw [write_loop_cons_none cr st rest _ h1] at h0 h5 ⊢
      simpa using ih h0 h5
    · rw [write_loop_cons_none cr st rest _ h1] at h0 h5 ⊢
      simp only [n_calls_append]
      simpa [n_calls] using ih h0 h5
    · rw [write_loop_cons_some cr st rest _ _ h1]
      simp [n_calls]
    · rw [write_loop_cons_none cr st rest _ h1] at h0 h5 ⊢
      simp only [n_calls_append]
      simpa [n_calls] using ih h0 h5
    · rw [write_loop_cons_some cr st rest _ _ h1]
      simp [n_calls]

/-! ## Properties of `wiredtiger_write` -/

/-- C1 (atomicity): whenever `wiredtiger_write` returns a non-zero status, or some `update` or
`remove` of the batch reported an error, the table visible after the call is exactly the table
before the call, and a point lookup of any key returns what it returned before. The engine is
the transactional key-value map of `Engine.step`: `rollback_transaction` discards every change
made since `begin_transaction`, and a `commit_transaction` that returns an error has rolled
the transaction back. The last conjunct records that only status 5 relies on the latter: on
every other failure the bridge never reaches `commit_transaction`. -/
theorem write_failure_keeps_store (env : WriteEnv) (session cursor : Int)
    (it : Option JObject) (s : Store)
    (hfail : (wiredtiger_write env session cursor it).status ≠ 0 ∨
      op_failed (wiredtiger_write env session cursor it).trace = true) :
    store_after s (wiredtiger_write env session cursor it) = s ∧
    (∀ k, get (store_after s (wiredtiger_write env session cursor it)) k = get s k) ∧
    ((wiredtiger_write env session cursor it).status ≠ 5 →
      n_calls .commit_transaction (wiredtiger_write env session cursor it).trace = 0) := by
  have hne : (wiredtiger_write env session cursor it).status ≠ 0 := by
    rcases hfail with h | h
    · exact h
    · rcases write_result_cases env session cursor it with ⟨_, h0, _⟩ | ⟨_, _, h6, _⟩ |
        ⟨j, _, _, ht, hst, _⟩
      · exact h0
      · rw [h6]; decide
      · rw [ht] at h
        rw [hst]
        apply loop_status_of_failed
        simpa [op_failed] using h
  have key : store_after s (wiredtiger_write env session cursor it) = s := by
    rcases write_result_cases env session cursor it with ⟨ht, _, _⟩ | ⟨hb, ht, _, _⟩ |
      ⟨j, _, hb, ht, hst, _⟩
    · simp [store_after, ht, Engine.run, Engine.visible, Engine.ofStore]
    · simp [store_after, ht, Engine.run, Engine.step, Engine.visible, Engine.ofStore, hb]
    · rw [hst] at hne
      rw [store_after, ht, run_cons]
      exact run_loop_failure env.commit_ret j.steps _ s
        (by simp [Engine.step, Engine.visible, Engine.ofStore]) hne
  refine ⟨key, fun k => by rw [key], ?_⟩
  intro h5
  rcases write_result_cases env session cursor it with ⟨ht, _, _⟩ | ⟨hb, ht, _, _⟩ |
    ⟨j, _, hb, ht, hst, _⟩
  · rw [ht]; rfl
  · rw [ht]; simp [n_calls]
  · rw [hst] at hne h5
    rw [ht, n_calls_cons]
    simpa using loop_no_commit env.commit_ret j.steps hne h5

theorem write_failure_keeps_store_witness :
    store_after (Store.empty.put [9] [9]) (wiredtiger_write env_ok 1 1
      (some ⟨true, [Step.upsert [1] [2] 0, Step.delete [9] 0, Step.upsert [3] [4] 22]⟩)) =
      Store.empty.put [9] [9] ∧
    (∀ k, get (store_after (Store.empty.put [9] [9]) (wiredtiger_write env_ok 1 1
      (some ⟨true, [Step.upsert [1] [2] 0, Step.delete [9] 0, Step.upsert [3] [4] 22]⟩))) k =
      get (Store.empty.put [9] [9]) k) ∧
    ((wiredtiger_write env_ok 1 1
      (some ⟨true, [Step.upsert [1] [2] 0, Step.delete [9] 0, Step.upsert [3] [4] 22]⟩)).status
        ≠ 5 →
      n_calls .commit_transaction (wiredtiger_write env_ok 1 1
        (some ⟨true, [Step.upsert [1] [2] 0, Step.delete [9] 0,
          Step.upsert [3] [4] 22]⟩)).trace = 0) :=
  write_failure_keeps_store env_ok 1 1
    (some ⟨true, [Step.upsert [1] [2] 0, Step.delete [9] 0, Step.upsert [3] [4] 22]⟩)
    (Store.empty.put [9] [9]) (Or.inl (by decide))

/-- C2 (commit if and only if all records applied): in every call in which
`begin_transaction` was called and succeeded, `commit_transaction` is called if and only if no
`update` or `remove` call returned an error; when one did, `rollback_transaction` is called
exactly once and `commit_transaction` is not called; commit and rollback are never both
called. -/
theorem write_commit_iff_all_applied (env : WriteEnv) (session cursor : Int)
    (it : Option JObject)
    (hb : (⟨.begin_transaction, 0⟩ : Event) ∈ (wiredtiger_write env session cursor it).trace) :
    (0 < n_calls .commit_transaction (wiredtiger_write env session cursor it).trace ↔
      op_failed (wiredtiger_write env session cursor it).trace = false) ∧
    (op_failed (wiredtiger_write env session cursor it).trace = true →
      n_calls .rollback_transaction (wiredtiger_write env session cursor it).trace = 1 ∧
      n_calls .commit_transaction (wiredtiger_write env session cursor it).trace = 0) ∧
    (op_failed (wiredtiger_write env session cursor it).trace = false →
      n_calls .commit_transaction (wiredtiger_write env session cursor it).trace = 1 ∧
      n_calls .rollback_transaction (wiredtiger_write env session cursor it).trace = 0) ∧
    ¬ (0 < n_calls .commit_transaction (wiredtiger_write env session cursor it).trace ∧
      0 < n_calls .rollback_transaction (wiredtiger_write env session cursor it).trace) := by
  rcases write_result_cases env session cursor it with ⟨ht, _, _⟩ | ⟨hne, ht, _, _⟩ |
    ⟨j, _, _, ht, _, _⟩
  · rw [ht] at hb
    simp at hb
  · rw [ht] at hb
    simp only [List.mem_singleton, Event.mk.injEq, true_and] at hb
    exact absurd hb.symm hne
  · rw [ht]
    obtain ⟨h1, h2⟩ := loop_calls env.commit_ret j.steps
    have hf : op_failed (⟨.begin_transaction, 0⟩ :: (write_loop env.commit_ret j.steps).2.2) =
        op_failed (write_loop env.commit_ret j.steps).2.2 := by
      simp [op_failed]
    have hc : ∀ c : Call, c ≠ .begin_transaction →
        n_calls c (⟨.begin_transaction, 0⟩ :: (write_loop env.commit_ret j.steps).2.2) =
          n_calls c (write_loop env.commit_ret j.steps).2.2 := by
      intro c hcne
      rw [n_calls_cons]
      simp [Ne.symm hcne]
    rw [hf, hc _ (by simp), hc _ (by simp)]
    cases hop : op_failed (write_loop env.commit_ret j.steps).2.2
    · obtain ⟨h3, h4⟩ := h1 hop
      simp [h3, h4]
    · obtain ⟨h3, h4⟩ := h2 hop
      simp [h3, h4]

theorem write_commit_iff_all_applied_witness :
    (0 < n_calls .commit_transaction (wiredtiger_write env_ok 1 1
        (some ⟨true, [Step.upsert [1] [2] 0, Step.delete [3] 7]⟩)).trace ↔
      op_failed (wiredtiger_write env_ok 1 1
        (some ⟨true, [Step.upsert [1] [2] 0, Step.delete [3] 7]⟩)).trace = false) ∧
    (op_failed (wiredtiger_write env_ok 1 1
        (some ⟨true, [Step.upsert [1] [2] 0, Step.delete [3] 7]⟩)).trace = true →
      n_calls .rollback_transaction (wiredtiger_write env_ok 1 1
        (some ⟨true, [Step.upsert [1] [2] 0, Step.delete [3] 7]⟩)).trace = 1 ∧
      n_calls .commit_transaction (wiredtiger_write env_ok 1 1
        (some ⟨true, [Step.upsert [1] [2] 0, Step.delete [3] 7]⟩)).trace = 0) ∧
    (op_failed (wiredtiger_write env_ok 1 1
        (some ⟨true, [Step.upsert [1] [2] 0, Step.delete [3] 7]⟩)).trace = false →
      n_calls .commit_transaction (wiredtiger_write env_ok 1 1
        (some ⟨true, [Step.upsert [1] [2] 0, Step.delete [3] 7]⟩)).trace = 1 ∧
      n_calls .rollback_transaction (wiredtiger_write env_ok 1 1
        (some ⟨true, [Step.upsert [1] [2] 0, Step.delete [3] 7]⟩)).trace = 0) ∧
    ¬ (0 < n_calls .commit_transaction (wiredtiger_write env_ok 1 1
        (some ⟨true, [Step.upsert [1] [2] 0, Step.delete [3] 7]⟩)).trace ∧
      0 < n_calls .rollback_transaction (wiredtiger_write env_ok 1 1
        (some ⟨true, [Step.upsert [1] [2] 0, Step.delete [3] 7]⟩)).trace) :=
  write_commit_iff_all_applied env_ok 1 1
    (some ⟨true, [Step.upsert [1] [2] 0, Step.delete [3] 7]⟩) (by decide)

/-- C5 (status codes): with valid handles, a successful lookup initialisation and an iterator
object, the status is 0 exactly when `begin_transaction`, every issued `update` / `remove` and
`commit_transaction` succeeded; 6 exactly when `begin_transaction` fails; 7, 8 or 9 exactly when
the first failing operation is an update, a remove for a present-but-empty value, or a remove
for an absent value; 5 exactly when every operation succeeded and `commit_transaction` fails.
The codes 6, 7, 8, 9 and 5 are pairwise distinct and non-zero, and no other status occurs. -/
theorem write_status_codes (env : WriteEnv) (session cursor : Int) (j : JObject)
    (hs : session ≠ 0) (hc : cursor ≠ 0) (hi : init_ok env) (hj : j.is_iterator = true) :
    ((wiredtiger_write env session cursor (some j)).status = 0 ↔
      env.begin_ret = 0 ∧ (∀ st ∈ j.steps, st.op ≠ none → st.op_ret = 0) ∧
        env.commit_ret = 0) ∧
    ((wiredtiger_write env session cursor (some j)).status = 6 ↔ env.begin_ret ≠ 0) ∧
    ((wiredtiger_write env session cursor (some j)).status = 7 ↔
      env.begin_ret = 0 ∧ first_failure j.steps = some .update) ∧
    ((wiredtiger_write env session cursor (some j)).status = 8 ↔
      env.begin_ret = 0 ∧ first_failure j.steps = some .remove_empty) ∧
    ((wiredtiger_write env session cursor (some j)).status = 9 ↔
      env.begin_ret = 0 ∧ first_failure j.steps = some .remove_absent) ∧
    ((wiredtiger_write env session cursor (some j)).status = 5 ↔
      env.begin_ret = 0 ∧ (∀ st ∈ j.steps, st.op ≠ none → st.op_ret = 0) ∧
        env.commit_ret ≠ 0) ∧
    (wiredtiger_write env session cursor (some j)).status ∈ ([0, 6, 7, 8, 9, 5] : List Int) ∧
    ([0, 6, 7, 8, 9, 5] : List Int).Nodup := by
  obtain ⟨h1, h2⟩ := write_reaches_begin env session cursor j hs hc hi hj
  rw [h1, h2]
  have hnone := first_failure_none_iff j.steps
  by_cases hb : env.begin_ret = 0
  · simp only [hb, ne_eq, not_true_eq_false, if_false, true_and]
    rw [loop_status, ← hnone]
    rcases hff : first_failure j.steps with _ | op
    · by_cases hcr : env.commit_ret = 0 <;> simp [hcr]
    · cases op <;> simp [Op.code]
  · simp [hb]

theorem write_status_codes_witness :
    ((wiredtiger_write env_ok 1 1 (some ⟨true, [Step.delete [3] 7]⟩)).status = 0 ↔
      env_ok.begin_ret = 0 ∧
        (∀ st ∈ (⟨true, [Step.delete [3] 7]⟩ : JObject).steps, st.op ≠ none → st.op_ret = 0) ∧
        env_ok.commit_ret = 0) ∧
    ((wiredtiger_write env_ok 1 1 (some ⟨true, [Step.delete [3] 7]⟩)).status = 6 ↔
      env_ok.begin_ret ≠ 0) ∧
    ((wiredtiger_write env_ok 1 1 (some ⟨true, [Step.delete [3] 7]⟩)).status = 7 ↔
      env_ok.begin_ret = 0 ∧
        first_failure (⟨true, [Step.delete [3] 7]⟩ : JObject).steps = some .update) ∧
    ((wiredtiger_write env_ok 1 1 (some ⟨true, [Step.delete [3] 7]⟩)).status = 8 ↔
      env_ok.begin_ret = 0 ∧
        first_failure (⟨true, [Step.delete [3] 7]⟩ : JObject).steps = some .remove_empty) ∧
    ((wiredtiger_write env_ok 1 1 (some ⟨true, [Step.delete [3] 7]⟩)).status = 9 ↔
      env_ok.begin_ret = 0 ∧
        first_failure (⟨true, [Step.delete [3] 7]⟩ : JObject).steps = some .remove_absent) ∧
    ((wiredtiger_write env_ok 1 1 (some ⟨true, [Step.delete [3] 7]⟩)).status = 5 ↔
      env_ok.begin_ret = 0 ∧
        (∀ st ∈ (⟨true, [Step.delete [3] 7]⟩ : JObject).steps, st.op ≠ none → st.op_ret = 0) ∧
        env_ok.commit_ret ≠ 0) ∧
    (wiredtiger_write env_ok 1 1 (some ⟨true, [Step.delete [3] 7]⟩)).status ∈
      ([0, 6, 7, 8, 9, 5] : List Int) ∧
    ([0, 6, 7, 8, 9, 5] : List Int).Nodup :=
  write_status_codes env_ok 1 1 ⟨true, [Step.delete [3] 7]⟩ (by decide) (by decide)
    (by decide) (by decide)

/-- C9 (failed begin touches nothing): with valid handles, a successful lookup initialisation
and an iterator object, when `begin_transaction` fails `wiredtiger_write` returns 6, fetches no
entry from the iterator, and its only engine call is the failed `begin_transaction`: no
`set_key`, `set_value`, `update`, `remove`, `commit_transaction` or `rollback_transaction`. -/
theorem write_begin_failed (env : WriteEnv) (session cursor : Int) (j : JObject)
    (hs : session ≠ 0) (hc : cursor ≠ 0) (hi : init_ok env) (hj : j.is_iterator = true)
    (hb : env.begin_ret ≠ 0) :
    (wiredtiger_write env session cursor (some j)).status = 6 ∧
    (wiredtiger_write env session cursor (some j)).reads = 0 ∧
    (wiredtiger_write env session cursor (some j)).trace =
      [⟨.begin_transaction, env.begin_ret⟩] := by
  obtain ⟨h1, h2⟩ := write_reaches_begin env session cursor j hs hc hi hj
  rw [h1, h2]
  simp [hb]

theorem write_begin_failed_witness :
    (wiredtiger_write ⟨0, true, true, 13, 0⟩ 1 1
      (some ⟨true, [Step.upsert [1] [2] 0, Step.delete [3] 0]⟩)).status = 6 ∧
    (wiredtiger_write ⟨0, true, true, 13, 0⟩ 1 1
      (some ⟨true, [Step.upsert [1] [2] 0, Step.delete [3] 0]⟩)).reads = 0 ∧
    (wiredtiger_write ⟨0, true, true, 13, 0⟩ 1 1
      (some ⟨true, [Step.upsert [1] [2] 0, Step.delete [3] 0]⟩)).trace =
      [⟨.begin_transaction, (⟨0, true, true, 13, 0⟩ : WriteEnv).begin_ret⟩] :=
  write_begin_failed ⟨0, true, true, 13, 0⟩ 1 1
    ⟨true, [Step.upsert [1] [2] 0, Step.delete [3] 0]⟩ (by decide) (by decide) (by decide)
    (by decide) (by decide)

/-- C10 (empty key is skipped): an entry whose key is absent, has no buffer, or has length zero
or less causes no engine call and no error in the loop body, and the status and the sequence
of engine calls of `wiredtiger_write` are the same as for the change set without that entry. -/
theorem write_skips_empty_key (env : WriteEnv) (session cursor : Int) (b : Bool)
    (pre post : List Step) (st : Step) (hk : absent_or_empty st.entry.key = true) :
    write_entry st = ([], none) ∧
    (wiredtiger_write env session cursor (some ⟨b, pre ++ st :: post⟩)).status =
      (wiredtiger_write env session cursor (some ⟨b, pre ++ post⟩)).status ∧
    (wiredtiger_write env session cursor (some ⟨b, pre ++ st :: post⟩)).trace =
      (wiredtiger_write env session cursor (some ⟨b, pre ++ post⟩)).trace := by
  have hw := write_entry_skipped st hk
  obtain ⟨h1, h2⟩ := loop_skip env.commit_ret st post hw pre
  refine ⟨hw, ?_, ?_⟩
  · simp only [wiredtiger_write, write_body]
    split_ifs <;> simp [h1]
  · simp only [wiredtiger_write, write_body]
    split_ifs <;> simp [h2]

theorem write_skips_empty_key_witness :
    write_entry ⟨⟨some ⟨some [1, 2], 0⟩, some (Octets.of [5])⟩, true, true, 3⟩ = ([], none) ∧
    (wiredtiger_write env_ok 1 1 (some ⟨true, [Step.upsert [1] [2] 0] ++
      ⟨⟨some ⟨some [1, 2], 0⟩, some (Octets.of [5])⟩, true, true, 3⟩ ::
        [Step.delete [3] 0]⟩)).status =
      (wiredtiger_write env_ok 1 1
        (some ⟨true, [Step.upsert [1] [2] 0] ++ [Step.delete [3] 0]⟩)).status ∧
    (wiredtiger_write env_ok 1 1 (some ⟨true, [Step.upsert [1] [2] 0] ++
      ⟨⟨some ⟨some [1, 2], 0⟩, some (Octets.of [5])⟩, true, true, 3⟩ ::
        [Step.delete [3] 0]⟩)).trace =
      (wiredtiger_write env_ok 1 1
        (some ⟨true, [Step.upsert [1] [2] 0] ++ [Step.delete [3] 0]⟩)).trace :=
  write_skips_empty_key env_ok 1 1 true [Step.upsert [1] [2] 0] [Step.delete [3] 0]
    ⟨⟨some ⟨some [1, 2], 0⟩, some (Octets.of [5])⟩, true, true, 3⟩ (by decide)

/-- The length computed at lines 98-100 is `keylen` clamped into 0 .. array length. -/
theorem get_keylen_clamp (k : Bytes) (keylen : Int) :
    get_keylen k keylen = (clamp keylen k.length : Int) := by
  simp only [get_keylen, clamp]
  split_ifs <;> omega

/-- C8 (point lookup): `wiredtiger_get` returns null when the cursor or the key is null. For a
cursor and a key array, the length it computes is `keylen` clamped into 0 .. array length (0
for a negative `keylen`, the array length for a `keylen` beyond it), and the key item it sets
and searches has the array as data and that clamped length as size, that is the first `n`
bytes of the array. The result is the value item when `search` and `get_value` both return 0,
and null when the key array cannot be pinned or either call reports failure. On the key-value
engine the result is the value held for those first `n` bytes, null when they are not a key
of the table. -/
theorem get_point_lookup (cursor : Option Cursor) (key : Option Bytes) (keylen : Int)
    (keyptr : Bool) :
    (cursor = none ∨ key = none → wiredtiger_get cursor key keylen keyptr = none) ∧
    (∀ (wc : Cursor) (k : Bytes), cursor = some wc → key = some k →
      get_keylen k keylen = (clamp keylen k.length : Int) ∧
      clamp keylen k.length ≤ k.length ∧
      (keylen < 0 → get_keylen k keylen = 0) ∧
      (keylen > k.length → get_keylen k keylen = k.length) ∧
      (0 ≤ keylen → keylen ≤ k.length → get_keylen k keylen = keylen) ∧
      wiredtiger_get cursor key keylen keyptr =
        (if keyptr = false then none
          else if wc.search ⟨k, clamp keylen k.length⟩ ≠ 0 then none
          else if (wc.get_value ⟨k, clamp keylen k.length⟩).1 ≠ 0 then none
          else some (wc.get_value ⟨k, clamp keylen k.length⟩).2) ∧
      (keyptr = true → wc.search ⟨k, clamp keylen k.length⟩ = 0 →
        (wc.get_value ⟨k, clamp keylen k.length⟩).1 = 0 →
        wiredtiger_get cursor key keylen keyptr =
          some (wc.get_value ⟨k, clamp keylen k.length⟩).2) ∧
      (wc.search ⟨k, clamp keylen k.length⟩ ≠ 0 ∨
          (wc.get_value ⟨k, clamp keylen k.length⟩).1 ≠ 0 →
        wiredtiger_get cursor key keylen keyptr = none)) ∧
    (∀ (e : Engine) (k : Bytes), cursor = some e.cursor → key = some k → keyptr = true →
      wiredtiger_get cursor key keylen keyptr = e.visible (k.take (clamp keylen k.length))) := by
  refine ⟨?_, ?_, ?_⟩
  · rintro (h | h)
    · subst h
      simp [wiredtiger_get]
    · subst h
      cases cursor <;> simp [wiredtiger_get]
  · intro wc k hc hk
    subst hc hk
    have hclamp := get_keylen_clamp k keylen
    have hmain : wiredtiger_get (some wc) (some k) keylen keyptr =
        (if keyptr = false then none
          else if wc.search ⟨k, clamp keylen k.length⟩ ≠ 0 then none
          else if (wc.get_value ⟨k, clamp keylen k.length⟩).1 ≠ 0 then none
          else some (wc.get_value ⟨k, clamp keylen k.length⟩).2) := by
      simp only [wiredtiger_get, hclamp]
    refine ⟨hclamp, ?_, ?_, ?_, ?_, hmain, ?_, ?_⟩
    · simp only [clamp]; omega
    · intro h; rw [hclamp]; simp only [clamp]; omega
    · intro h; rw [hclamp]; simp only [clamp]; omega
    · intro h1 h2; rw [hclamp]; simp only [clamp]; omega
    · intro hp hs hg
      rw [hmain]
      simp [hp, hs, hg]
    · intro h
      rw [hmain]
      rcases h with h | h
      · simp [h]
      · simp [h]
  · intro e k hc hk hp
    subst hc hk hp
    simp only [wiredtiger_get, get_keylen_clamp]
    have hb : (⟨k, clamp keylen k.length⟩ : WT_ITEM).bytes =
        List.take (clamp keylen k.length) k := by
      simp [WT_ITEM.bytes]
    cases h : e.visible (List.take (clamp keylen k.length) k) <;>
      simp [Engine.cursor, hb, h, WT_NOTFOUND]

theorem get_point_lookup_witness :
    (get_keylen [1, 2, 3] 9 = (clamp 9 [1, 2, 3].length : Int) ∧
      clamp 9 [1, 2, 3].length ≤ [1, 2, 3].length ∧
      ((9 : Int) < 0 → get_keylen [1, 2, 3] 9 = 0) ∧
      ((9 : Int) > [1, 2, 3].length → get_keylen [1, 2, 3] 9 = [1, 2, 3].length) ∧
      ((0 : Int) ≤ 9 → (9 : Int) ≤ [1, 2, 3].length → get_keylen [1, 2, 3] 9 = 9) ∧
      wiredtiger_get (some (Engine.ofStore (Store.empty.put [1, 2, 3] [4])).cursor)
          (some [1, 2, 3]) 9 true =
        (if true = false then none
          else if (Engine.ofStore (Store.empty.put [1, 2, 3] [4])).cursor.search
            ⟨[1, 2, 3], clamp 9 [1, 2, 3].length⟩ ≠ 0 then none
          else if ((Engine.ofStore (Store.empty.put [1, 2, 3] [4])).cursor.get_value
            ⟨[1, 2, 3], clamp 9 [1, 2, 3].length⟩).1 ≠ 0 then none
          else some ((Engine.ofStore (Store.empty.put [1, 2, 3] [4])).cursor.get_value
            ⟨[1, 2, 3], clamp 9 [1, 2, 3].length⟩).2) ∧
      (true = true →
        (Engine.ofStore (Store.empty.put [1, 2, 3] [4])).cursor.search
          ⟨[1, 2, 3], clamp 9 [1, 2, 3].length⟩ = 0 →
        ((Engine.ofStore (Store.empty.put [1, 2, 3] [4])).cursor.get_value
          ⟨[1, 2, 3], clamp 9 [1, 2, 3].length⟩).1 = 0 →
        wiredtiger_get (some (Engine.ofStore (Store.empty.put [1, 2, 3] [4])).cursor)
          (some [1, 2, 3]) 9 true =
          some ((Engine.ofStore (Store.empty.put [1, 2, 3] [4])).cursor.get_value
            ⟨[1, 2, 3], clamp 9 [1, 2, 3].length⟩).2) ∧
      ((Engine.ofStore (Store.empty.put [1, 2, 3] [4])).cursor.search
          ⟨[1, 2, 3], clamp 9 [1, 2, 3].length⟩ ≠ 0 ∨
          ((Engine.ofStore (Store.empty.put [1, 2, 3] [4])).cursor.get_value
            ⟨[1, 2, 3], clamp 9 [1, 2, 3].length⟩).1 ≠ 0 →
        wiredtiger_get (some (Engine.ofStore (Store.empty.put [1, 2, 3] [4])).cursor)
          (some [1, 2, 3]) 9 true = none)) ∧
    wiredtiger_get (some (Engine.ofStore (Store.empty.put [1, 2, 3] [4])).cursor)
      (some [1, 2, 3]) 9 true = some [4] ∧
    wiredtiger_get (some (Engine.ofStore (Store.empty.put [1, 2, 3] [4])).cursor)
      (some [1, 2, 3]) (-1) true = none ∧
    wiredtiger_get none (some [1, 2, 3]) 3 true = none :=
  ⟨(get_point_lookup (some (Engine.ofStore (Store.empty.put [1, 2, 3] [4])).cursor)
      (some [1, 2, 3]) 9 true).2.1 _ _ rfl rfl,
    ((get_point_lookup (some (Engine.ofStore (Store.empty.put [1, 2, 3] [4])).cursor)
      (some [1, 2, 3]) 9 true).2.2 _ _ rfl rfl rfl).trans (by decide),
    ((get_point_lookup (some (Engine.ofStore (Store.empty.put [1, 2, 3] [4])).cursor)
      (some [1, 2, 3]) (-1) true).2.2 _ _ rfl rfl rfl).trans (by decide),
    (get_point_lookup none (some [1, 2, 3]) 3 true).1 (Or.inl rfl)⟩

/-! ## The iterator functions -/

theorem lower_bound_le (t : Bytes) (keys : List Bytes) : lower_bound t keys ≤ keys.length := by
  induction keys with
  | nil => simp [lower_bound]
  | cons k ks ih =>
    simp only [lower_bound]
    split_ifs <;> simp <;> omega

theorem lower_bound_before (t : Bytes) (keys : List Bytes) :
    ∀ (j : Nat) (a : Bytes), j < lower_bound t keys → keys[j]? = some a → a < t := by
  induction keys with
  | nil => intro j a h; simp [lower_bound] at h
  | cons k ks ih =>
    intro j a h ha
    simp only [lower_bound] at h
    split_ifs at h with hk
    · omega
    · cases j with
      | zero =>
        simp at ha
        subst ha
        exact not_le.mp hk
      | succ j =>
        simp only [List.getElem?_cons_succ] at ha
        exact ih j a (by omega) ha

theorem lower_bound_at (t : Bytes) (keys : List Bytes) :
    ∀ a : Bytes, keys[lower_bound t keys]? = some a → t ≤ a := by
  induction keys with
  | nil => intro a h; simp at h
  | cons k ks ih =>
    intro a ha
    simp only [lower_bound] at ha
    split_ifs at ha with hk
    · simp at ha
      subst ha
      exact hk
    · simp only [List.getElem?_cons_succ] at ha
      exact ih a ha

theorem sorted_getElem?_lt (keys : List Bytes) (h : keys.Sorted (· < ·)) :
    ∀ (i j : Nat) (a b : Bytes), i < j → keys[i]? = some a → keys[j]? = some b → a < b := by
  intro i j a b hij ha hb
  obtain ⟨hi, rfl⟩ := List.getElem?_eq_some_iff.mp ha
  obtain ⟨hj, rfl⟩ := List.getElem?_eq_some_iff.mp hb
  exact List.pairwise_iff_getElem.mp h i j hi hj hij

theorem lower_bound_after (t : Bytes) (keys : List Bytes) (h : keys.Sorted (· < ·)) :
    ∀ (j : Nat) (a : Bytes), lower_bound t keys ≤ j → keys[j]? = some a → t ≤ a := by
  intro j a hj ha
  rcases Nat.eq_or_lt_of_le hj with heq | hlt
  · rw [← heq] at ha
    exact lower_bound_at t keys a ha
  · have hjl : j < keys.length := (List.getElem?_eq_some_iff.mp ha).1
    have hl : lower_bound t keys < keys.length := by omega
    have hb : keys[lower_bound t keys]? = some keys[lower_bound t keys] :=
      List.getElem?_eq_getElem hl
    exact le_of_lt (lt_of_le_of_lt (lower_bound_at t keys _ hb)
      (sorted_getElem?_lt keys h _ _ _ _ hlt hb ha))

theorem positioned_some (keys : List Bytes) (i : Nat) :
    positioned (some ⟨keys, some i⟩) = keys[i]? := by
  simp only [positioned, Iterator.Valid, Iterator.key]
  by_cases h : i < keys.length
  · simp [h, List.getD_eq_getElem?_getD]
  · simp [h, List.getElem?_eq_none (not_lt.mp h)]

theorem positioned_none (keys : List Bytes) : positioned (some ⟨keys, none⟩) = none := by
  simp [positioned, Iterator.Valid]


theorem compare_eq_zero (a b : Bytes) : Slice.compare a b = 0 ↔ a = b := by
  unfold Slice.compare
  split_ifs with h1 h2
  · simp [ne_of_lt h1]
  · simp [h2]
  · simp [h2]

theorem seek_invalid (keys : List Bytes) (ref : Bytes)
    (h : ¬ lower_bound ref keys < keys.length) :
    (Iterator.Seek ⟨keys, none⟩ ref) = ⟨keys, none⟩ := by
  simp [Iterator.Seek, h]

theorem seek_valid (keys : List Bytes) (ref : Bytes)
    (h : lower_bound ref keys < keys.length) :
    (Iterator.Seek ⟨keys, none⟩ ref) = ⟨keys, some (lower_bound ref keys)⟩ := by
  simp [Iterator.Seek, h]

theorem positioned_prev (keys : List Bytes) (i : Nat) :
    positioned (some (Iterator.Prev ⟨keys, some i⟩)) = if i = 0 then none else keys[i - 1]? := by
  simp only [Iterator.Prev]
  split_ifs with h
  · exact positioned_none keys
  · exact positioned_some keys (i - 1)

theorem positioned_next (keys : List Bytes) (i : Nat) :
    positioned (some (Iterator.Next ⟨keys, some i⟩)) = keys[i + 1]? := by
  simp only [Iterator.Next]
  split_ifs with h
  · exact positioned_some keys (i + 1)
  · rw [positioned_none, List.getElem?_eq_none (not_lt.mp h)]

theorem positioned_last (keys : List Bytes) :
    positioned (some (Iterator.SeekToLast ⟨keys, none⟩)) = keys.getLast? := by
  simp only [Iterator.SeekToLast]
  cases keys with
  | nil => simp [positioned_none]
  | cons k ks => 
    simp only [List.isEmpty_cons, Bool.false_eq_true, if_false]
    rw [positioned_some, List.getLast?_eq_getElem?]

theorem positioned_first (keys : List Bytes) :
    positioned (some (Iterator.SeekToFirst ⟨keys, none⟩)) = keys.head? := by
  simp only [Iterator.SeekToFirst]
  cases keys with
  | nil => simp [positioned_none]
  | cons k ks => 
    simp only [List.isEmpty_cons, Bool.false_eq_true, if_false]
    rw [positioned_some, List.head?_eq_getElem?]

/-- The position the commented-out seek reaches, by index into the table. -/
theorem iter_new_disabled_pos (keys : List Bytes) (kb : Bytes) (keylen type : Int)
    (h0 : 0 ≤ type) (h3 : type ≤ 3) (hlen : keylen > 0) :
    positioned (iter_new_disabled (some ⟨keys⟩) (some kb) keylen type true) =
      if type = 0 then
        (if lower_bound ((⟨kb, keylen⟩ : Slice).bytes) keys = 0 then none
          else keys[lower_bound ((⟨kb, keylen⟩ : Slice).bytes) keys - 1]?)
      else if type = 1 then
        (if keys[lower_bound ((⟨kb, keylen⟩ : Slice).bytes) keys]? = some ((⟨kb, keylen⟩ : Slice).bytes) then
          some ((⟨kb, keylen⟩ : Slice).bytes)
        else if lower_bound ((⟨kb, keylen⟩ : Slice).bytes) keys = 0 then none
        else keys[lower_bound ((⟨kb, keylen⟩ : Slice).bytes) keys - 1]?)
      else if type = 2 then keys[lower_bound ((⟨kb, keylen⟩ : Slice).bytes) keys]?
      else
        (if keys[lower_bound ((⟨kb, keylen⟩ : Slice).bytes) keys]? = some ((⟨kb, keylen⟩ : Slice).bytes) then
          keys[lower_bound ((⟨kb, keylen⟩ : Slice).bytes) keys + 1]?
        else keys[lower_bound ((⟨kb, keylen⟩ : Slice).bytes) keys]?) := by
  have hr : ¬ (type < 0 ∨ type > 3) := by omega
  have hk : ¬ keylen ≤ 0 := by omega
  simp only [iter_new_disabled, hr, if_false, Option.isNone_some, Bool.false_eq_true, false_or,
    hk, Option.getD_some, compare_eq_zero]
  generalize (⟨kb, keylen⟩ : Slice).bytes = ref
  by_cases hv : lower_bound ref keys < keys.length
  · rw [seek_valid keys ref hv]
    have hval : Iterator.Valid ⟨keys, some (lower_bound ref keys)⟩ = true := by
      simp [Iterator.Valid, hv]
    have hkey : Iterator.key ⟨keys, some (lower_bound ref keys)⟩ = keys[lower_bound ref keys] := by
      simp [Iterator.key, List.getD_eq_getElem?_getD, hv]
    have hget : keys[lower_bound ref keys]? = some keys[lower_bound ref keys] :=
      List.getElem?_eq_getElem hv
    simp only [hval, if_true, hkey, hget, Option.some.injEq]
    by_cases heq : keys[lower_bound ref keys] = ref
    · simp only [heq, if_true]
      interval_cases type <;> simp [positioned_prev, positioned_next, positioned_some, hget, heq]
    · simp only [heq, if_false]
      interval_cases type <;> simp [positioned_prev, positioned_some, hget]
  · rw [seek_invalid keys ref hv]
    have hval : Iterator.Valid ⟨keys, none⟩ = false := by simp [Iterator.Valid]
    have hnone : keys[lower_bound ref keys]? = none := List.getElem?_eq_none (not_lt.mp hv)
    have hnone1 : keys[lower_bound ref keys + 1]? = none :=
      List.getElem?_eq_none (by omega)
    have hlb : lower_bound ref keys = keys.length := by
      have := lower_bound_le ref keys
      omega
    simp only [hval, Bool.false_eq_true, if_false, hnone, hnone1]
    interval_cases type <;> simp [positioned_last, positioned_none, List.getLast?_eq_getElem?, hlb]
    all_goals (cases keys <;> simp)


theorem lb_pred (ref : Bytes) (keys : List Bytes) (h : keys.Sorted (· < ·))
    (hpos : lower_bound ref keys ≠ 0) :
    ∃ a, keys[lower_bound ref keys - 1]? = some a ∧ a ∈ keys ∧ a < ref ∧
      ∀ k2 ∈ keys, k2 < ref → k2 ≤ a := by
  have hle := lower_bound_le ref keys
  have hlt : lower_bound ref keys - 1 < keys.length := by omega
  have hget : keys[lower_bound ref keys - 1]? = some keys[lower_bound ref keys - 1] :=
    List.getElem?_eq_getElem hlt
  refine ⟨_, hget, List.getElem?_mem hget, lower_bound_before ref keys _ _ (by omega) hget, ?_⟩
  intro k2 hk2 hlt2
  obtain ⟨j, hj⟩ := List.mem_iff_getElem?.mp hk2
  by_cases hjl : lower_bound ref keys ≤ j
  · exact absurd (lower_bound_after ref keys h j k2 hjl hj) (not_le.mpr hlt2)
  · rcases Nat.lt_or_ge j (lower_bound ref keys - 1) with h1 | h1
    · exact le_of_lt (sorted_getElem?_lt keys h _ _ _ _ h1 hj hget)
    · have : j = lower_bound ref keys - 1 := by omega
      subst this
      rw [hget] at hj
      exact le_of_eq (Option.some.inj hj).symm

theorem lb_zero (ref : Bytes) (keys : List Bytes) (h : keys.Sorted (· < ·))
    (hz : lower_bound ref keys = 0) : ∀ k2 ∈ keys, ref ≤ k2 := by
  intro k2 hk2
  obtain ⟨j, hj⟩ := List.mem_iff_getElem?.mp hk2
  exact lower_bound_after ref keys h j k2 (by omega) hj

theorem lb_at (ref : Bytes) (keys : List Bytes) (h : keys.Sorted (· < ·)) (a : Bytes)
    (ha : keys[lower_bound ref keys]? = some a) :
    a ∈ keys ∧ ref ≤ a ∧ ∀ k2 ∈ keys, ref ≤ k2 → a ≤ k2 := by
  refine ⟨List.getElem?_mem ha, lower_bound_at ref keys a ha, ?_⟩
  intro k2 hk2 hle
  obtain ⟨j, hj⟩ := List.mem_iff_getElem?.mp hk2
  rcases Nat.lt_trichotomy j (lower_bound ref keys) with h1 | h1 | h1
  · exact absurd hle (not_le.mpr (lower_bound_before ref keys j k2 h1 hj))
  · subst h1
    rw [ha] at hj
    exact le_of_eq (Option.some.inj hj)
  · exact le_of_lt (sorted_getElem?_lt keys h _ _ _ _ h1 ha hj)

theorem lb_none (ref : Bytes) (keys : List Bytes)
    (hn : keys[lower_bound ref keys]? = none) : ∀ k2 ∈ keys, k2 < ref := by
  intro k2 hk2
  obtain ⟨j, hj⟩ := List.mem_iff_getElem?.mp hk2
  have hjl : j < keys.length := (List.getElem?_eq_some_iff.mp hj).1
  have : keys.length ≤ lower_bound ref keys := by
    by_contra hc
    rw [List.getElem?_eq_getElem (not_le.mp hc)] at hn
    simp at hn
  exact lower_bound_before ref keys j k2 (by omega) hj

theorem lb_not_mem (ref : Bytes) (keys : List Bytes) (h : keys.Sorted (· < ·))
    (hne : keys[lower_bound ref keys]? ≠ some ref) : ref ∉ keys := by
  intro hmem
  obtain ⟨j, hj⟩ := List.mem_iff_getElem?.mp hmem
  rcases Nat.lt_trichotomy j (lower_bound ref keys) with h1 | h1 | h1
  · exact lt_irrefl _ (lower_bound_before ref keys j ref h1 hj)
  · subst h1
    exact hne hj
  · have hl : lower_bound ref keys < keys.length := by
      have := (List.getElem?_eq_some_iff.mp hj).1
      omega
    have hb : keys[lower_bound ref keys]? = some keys[lower_bound ref keys] :=
      List.getElem?_eq_getElem hl
    have h2 := sorted_getElem?_lt keys h _ _ _ _ h1 hb hj
    exact not_le.mpr h2 (lower_bound_at ref keys _ hb)

theorem lb_succ (ref : Bytes) (keys : List Bytes) (h : keys.Sorted (· < ·))
    (heq : keys[lower_bound ref keys]? = some ref) :
    (∀ b, keys[lower_bound ref keys + 1]? = some b →
      b ∈ keys ∧ ref < b ∧ ∀ k2 ∈ keys, ref < k2 → b ≤ k2) ∧
    (keys[lower_bound ref keys + 1]? = none → ∀ k2 ∈ keys, ¬ ref < k2) := by
  constructor
  · intro b hb
    refine ⟨List.getElem?_mem hb, sorted_getElem?_lt keys h _ _ _ _ (Nat.lt_succ_self _) heq hb,
      ?_⟩
    intro k2 hk2 hlt
    obtain ⟨j, hj⟩ := List.mem_iff_getElem?.mp hk2
    rcases Nat.lt_trichotomy j (lower_bound ref keys + 1) with h1 | h1 | h1
    · rcases Nat.lt_or_ge j (lower_bound ref keys) with h2 | h2
      · exact absurd (lower_bound_before ref keys j k2 h2 hj) (not_lt.mpr (le_of_lt hlt))
      · have : j = lower_bound ref keys := by omega
        subst this
        rw [heq] at hj
        exact absurd (Option.some.inj hj) (ne_of_lt hlt)
    · subst h1
      rw [hb] at hj
      exact le_of_eq (Option.some.inj hj)
    · exact le_of_lt (sorted_getElem?_lt keys h _ _ _ _ h1 hb hj)
  · intro hn k2 hk2 hlt
    obtain ⟨j, hj⟩ := List.mem_iff_getElem?.mp hk2
    have hjl : j < keys.length := (List.getElem?_eq_some_iff.mp hj).1
    have hlen : keys.length ≤ lower_bound ref keys + 1 := by
      by_contra hc
      rw [List.getElem?_eq_getElem (not_le.mp hc)] at hn
      simp at hn
    rcases Nat.lt_or_ge j (lower_bound ref keys) with h2 | h2
    · exact absurd (lower_bound_before ref keys j k2 h2 hj) (not_lt.mpr (le_of_lt hlt))
    · have : j = lower_bound ref keys := by omega
      subst this
      rw [heq] at hj
      exact absurd (Option.some.inj hj) (ne_of_lt hlt)

/-- The commented-out seek reaches the key the directive asks for. -/
theorem seek_answer_disabled (keys : List Bytes) (kb : Bytes) (keylen type : Int)
    (hs : keys.Sorted (· < ·)) (h0 : 0 ≤ type) (h3 : type ≤ 3) (hlen : keylen > 0) :
    seek_answer keys type ((⟨kb, keylen⟩ : Slice).bytes)
      (positioned (iter_new_disabled (some ⟨keys⟩) (some kb) keylen type true)) := by
  rw [iter_new_disabled_pos keys kb keylen type h0 h3 hlen]
  generalize (⟨kb, keylen⟩ : Slice).bytes = ref
  interval_cases type
  · -- less than
    simp only [if_true]
    by_cases hz : lower_bound ref keys = 0
    · simp only [hz, if_true, seek_answer, qualifies]
      intro k2 hk2
      have := lb_zero ref keys hs hz k2 hk2
      simp [not_lt.mpr this]
    · obtain ⟨a, hget, hmem, hlt, hmax⟩ := lb_pred ref keys hs hz
      simp only [hz, if_false, hget, seek_answer, qualifies]
      refine ⟨hmem, by simp [hlt], ?_⟩
      intro k2 hk2 hq
      simp at hq
      simpa using hmax k2 hk2 hq
  · -- less than or equal
    simp only [show ¬ ((1 : Int) = 0) by decide, if_false, if_true]
    by_cases heq : keys[lower_bound ref keys]? = some ref
    · simp only [heq, if_true, seek_answer, qualifies]
      refine ⟨List.getElem?_mem heq, by simp, ?_⟩
      intro k2 _ hq
      simp at hq
      simpa using hq
    · have hnm := lb_not_mem ref keys hs heq
      simp only [heq, if_false]
      by_cases hz : lower_bound ref keys = 0
      · simp only [hz, if_true, seek_answer, qualifies]
        intro k2 hk2
        have h1 := lb_zero ref keys hs hz k2 hk2
        simp only [show ¬ ((1 : Int) = 0) by decide, show ¬ ((1 : Int) = 2) by decide,
          show ¬ ((1 : Int) = 3) by decide, false_and, true_and, false_or, or_false]
        intro h2
        exact hnm (le_antisymm h1 h2 ▸ hk2)
      · obtain ⟨a, hget, hmem, hlt, hmax⟩ := lb_pred ref keys hs hz
        simp only [hz, if_false, hget, seek_answer, qualifies]
        refine ⟨hmem, by simp [le_of_lt hlt], ?_⟩
        intro k2 hk2 hq
        simp at hq
        have hne : k2 ≠ ref := fun h => hnm (h ▸ hk2)
        simpa using hmax k2 hk2 (lt_of_le_of_ne hq hne)
  · -- greater than or equal
    simp only [show ¬ ((2 : Int) = 0) by decide, show ¬ ((2 : Int) = 1) by decide, if_false,
      if_true]
    rcases hget : keys[lower_bound ref keys]? with _ | a
    · simp only [seek_answer, qualifies]
      intro k2 hk2
      have := lb_none ref keys hget k2 hk2
      simp [not_le.mpr this]
    · obtain ⟨hmem, hle, hmin⟩ := lb_at ref keys hs a hget
      simp only [seek_answer, qualifies]
      refine ⟨hmem, by simp [hle], ?_⟩
      intro k2 hk2 hq
      simp at hq
      simpa using hmin k2 hk2 hq
  · -- greater than
    simp only [show ¬ ((3 : Int) = 0) by decide, show ¬ ((3 : Int) = 1) by decide,
      show ¬ ((3 : Int) = 2) by decide, if_false]
    by_cases heq : keys[lower_bound ref keys]? = some ref
    · obtain ⟨hsome, hnone⟩ := lb_succ ref keys hs heq
      simp only [heq, if_true]
      rcases hget : keys[lower_bound ref keys + 1]? with _ | b
      · simp only [seek_answer, qualifies]
        intro k2 hk2
        have := hnone hget k2 hk2
        simp [this]
      · obtain ⟨hmem, hlt, hmin⟩ := hsome b hget
        simp only [seek_answer, qualifies]
        refine ⟨hmem, by simp [hlt], ?_⟩
        intro k2 hk2 hq
        simp at hq
        simpa using hmin k2 hk2 hq
    · simp only [heq, if_false]
      rcases hget : keys[lower_bound ref keys]? with _ | a
      · simp only [seek_answer, qualifies]
        intro k2 hk2
        have := lb_none ref keys hget k2 hk2
        simp [not_lt.mpr (le_of_lt this)]
      · obtain ⟨hmem, hle, hmin⟩ := lb_at ref keys hs a hget
        have hne : ref ≠ a := by
          intro h
          rw [hget, h] at heq
          exact heq rfl
        simp only [seek_answer, qualifies]
        refine ⟨hmem, by simp [lt_of_le_of_ne hle hne], ?_⟩
        intro k2 hk2 hq
        simp at hq
        simpa using hmin k2 hk2 (le_of_lt hq)

theorem drain_next_invalid (keys : List Bytes) (m : Nat) :
    drain iter_next_disabled m (some ⟨keys, none⟩) = List.replicate m none := by
  induction m with
  | zero => rfl
  | succ m ih => simp [drain, iter_next_disabled, Iterator.Valid, ih, List.replicate_succ]

theorem drain_prev_invalid (keys : List Bytes) (m : Nat) :
    drain iter_prev_disabled m (some ⟨keys, none⟩) = List.replicate m none := by
  induction m with
  | zero => rfl
  | succ m ih => simp [drain, iter_prev_disabled, Iterator.Valid, ih, List.replicate_succ]

theorem drain_next_from (keys : List Bytes) (m : Nat) :
    ∀ (d i : Nat), i + d = keys.length →
      drain iter_next_disabled (d + m)
        (some ⟨keys, if i < keys.length then some i else none⟩) =
        (keys.drop i).map some ++ List.replicate m none := by
  intro d
  induction d with
  | zero =>
    intro i hi
    have : ¬ i < keys.length := by omega
    simp only [this, if_false, Nat.zero_add]
    rw [drain_next_invalid, List.drop_of_length_le (by omega)]
    rfl
  | succ d ih =>
    intro i hi
    have hlt : i < keys.length := by omega
    have hstep : d + 1 + m = (d + m) + 1 := by omega
    rw [hstep, List.drop_eq_getElem_cons hlt]
    simp only [hlt, if_true, drain, iter_next_disabled, Iterator.Valid, decide_True,
      Iterator.key, Iterator.Next, List.map_cons, List.cons_append]
    rw [ih (i + 1) (by omega)]
    simp [List.getD_eq_getElem?_getD, hlt]

theorem drain_prev_from (keys : List Bytes) (m : Nat) :
    ∀ i : Nat, i < keys.length →
      drain iter_prev_disabled (i + 1 + m) (some ⟨keys, some i⟩) =
        ((keys.take (i + 1)).reverse).map some ++ List.replicate m none := by
  intro i
  induction i with
  | zero =>
    intro hi
    have hstep : 0 + 1 + m = m + 1 := by omega
    rw [hstep]
    simp only [drain, iter_prev_disabled, Iterator.Valid, hi, decide_True, if_true,
      Iterator.key, Iterator.Prev]
    rw [drain_prev_invalid]
    cases keys with
    | nil => simp at hi
    | cons k ks => simp
  | succ i ih =>
    intro hi
    have hstep : i + 1 + 1 + m = (i + 1 + m) + 1 := by omega
    rw [hstep]
    simp only [drain, iter_prev_disabled, Iterator.Valid, hi, decide_True, if_true,
      Iterator.key, Iterator.Prev, Nat.add_one_ne_zero, if_false, Nat.add_sub_cancel]
    have ht : List.take (i + 1 + 1) keys = List.take (i + 1) keys ++ [keys[i + 1]] := by
      rw [List.take_succ, List.getElem?_eq_getElem hi]
      rfl
    rw [ih (by omega), ht]
    simp only [List.getD_eq_getElem?_getD, List.getElem?_eq_getElem hi, Option.getD_some,
      List.reverse_append, List.reverse_cons, List.reverse_nil, List.nil_append,
      List.singleton_append, List.map_cons, List.cons_append]

theorem drain_next_all (keys : List Bytes) (m : Nat) :
    drain iter_next_disabled (keys.length + m)
        (iter_new_disabled (some ⟨keys⟩) none 0 2 true) =
      keys.map some ++ List.replicate m none := by
  have h := drain_next_from keys m keys.length 0 (by omega)
  simp only [List.drop_zero] at h
  rw [← h]
  cases keys <;> simp [iter_new_disabled, Iterator.SeekToFirst]

theorem drain_prev_all (keys : List Bytes) (m : Nat) :
    drain iter_prev_disabled (keys.length + m)
        (iter_new_disabled (some ⟨keys⟩) none 0 1 true) =
      keys.reverse.map some ++ List.replicate m none := by
  cases keys with
  | nil =>
    simp only [List.length_nil, Nat.zero_add, List.reverse_nil, List.map_nil, List.nil_append]
    rw [← drain_prev_invalid [] m]
    simp [iter_new_disabled, Iterator.SeekToLast]
  | cons k ks =>
    have h := drain_prev_from (k :: ks) m ks.length (by simp)
    rw [List.take_of_length_le (by simp)] at h
    rw [← h]
    simp [iter_new_disabled, Iterator.SeekToLast]

/-- C7 (iteration), amended. As compiled, `wiredtiger_iter_next` and `wiredtiger_iter_prev`
return null for every handle and leave the iterator untouched. The stepping that is present as
commented-out code returns, from the first key, every key of the table once in table order
and then null on every further call, and from the last key every key once in reverse order and
then null. On the keys 10, 20, 30: 10, 20, 30, null and 30, 20, 10, null. -/
theorem iter_steps :
    (∀ iter : Option Iterator,
      wiredtiger_iter_next iter = (none, iter) ∧ wiredtiger_iter_prev iter = (none, iter)) ∧
    (∀ (keys : List Bytes) (m : Nat),
      drain iter_next_disabled (keys.length + m)
          (iter_new_disabled (some ⟨keys⟩) none 0 2 true) =
        keys.map some ++ List.replicate m none) ∧
    (∀ (keys : List Bytes) (m : Nat),
      drain iter_prev_disabled (keys.length + m)
          (iter_new_disabled (some ⟨keys⟩) none 0 1 true) =
        keys.reverse.map some ++ List.replicate m none) ∧
    drain iter_next_disabled 4 (iter_new_disabled (some db123) none 0 2 true) =
      [some [10], some [20], some [30], none] ∧
    drain iter_prev_disabled 4 (iter_new_disabled (some db123) none 0 1 true) =
      [some [30], some [20], some [10], none] :=
  ⟨fun _ => ⟨rfl, rfl⟩, drain_next_all, drain_prev_all, by decide, by decide⟩

/-- C7 as stated fails on the compiled functions: on the table with the keys 10, 20, 30, four
calls of `wiredtiger_iter_next` on an iterator at the first key, and four calls of
`wiredtiger_iter_prev` on an iterator at the last key, all return null. -/
theorem iter_steps_counterexample :
    drain wiredtiger_iter_next 4 (some ⟨db123.keys, some 0⟩) = [none, none, none, none] ∧
    drain wiredtiger_iter_next 4 (some ⟨db123.keys, some 0⟩) ≠
      [some [10], some [20], some [30], none] ∧
    drain wiredtiger_iter_prev 4 (some ⟨db123.keys, some 2⟩) = [none, none, none, none] ∧
    drain wiredtiger_iter_prev 4 (some ⟨db123.keys, some 2⟩) ≠
      [some [30], some [20], some [10], none] := by
  decide

end WtJni
